import Mathlib

/-!
Shallow embedding of the DNAcrypt repository's codec sources.

`dnapng.go` is modelled at the pixel-grid boundary that the specification
fixes: PNG (de)serialization is the external black box, so the encoder
produces an in-memory RGBA grid and the decoder consumes one.  Go's
`image.NewRGBA` yields a zero-initialized grid (every pixel `(0,0,0,0)`),
`Set` ignores out-of-bounds writes and `At` returns the zero color out of
bounds; `RGBA()` scales every 8-bit channel by `0x101 = 257` to 16-bit.
All of that is reproduced here.  Machine integers are modelled as `Nat`
(and `Int` for the `int` configuration fields, whose sign the validation
checks inspect); every intermediate value stays far below any overflow
boundary, as in the original.

`dnacrypt.go`'s pure helpers (`byteToDNA`, `dnaToByte`, `textToDNA`,
`dnaToText`, `dnaBaseToBinary`, `binaryToDNABase`, `xorDNAStrings`) are
modelled directly; their `error` results become an inductive error type,
since the Go code only ever distinguishes error identities, not message
texts.
-/

/-- One RGBA pixel with 8-bit channels, as stored by Go's `image.RGBA`. -/
structure RGBA where
  r : Nat
  g : Nat
  b : Nat
  a : Nat
deriving DecidableEq, Repr

/-- An in-memory pixel grid: the `image.RGBA` value that `dnaToPNGGrayscale`
builds and `pngToDNAGrayscale` reads.  `pix` is total; out-of-bounds reads
are clamped by `Image.getPixel` exactly as Go's `At` does. -/
structure Image where
  width : Nat
  height : Nat
  pix : Nat → Nat → RGBA

/-- `image.NewRGBA(image.Rect(0, 0, w, h))`: a zero-initialized grid, so
every pixel starts as `(0,0,0,0)` — alpha 0. -/
def Image.new (w h : Nat) : Image :=
  { width := w, height := h, pix := fun _ _ => RGBA.mk 0 0 0 0 }

/-- Go's `(*RGBA).Set`: a write outside the rectangle is a no-op. -/
def setPixel (img : Image) (x y : Nat) (c : RGBA) : Image :=
  if x < img.width ∧ y < img.height then
    { img with pix := fun px py => if px = x ∧ py = y then c else img.pix px py }
  else img

/-- Go's `(*RGBA).At`: a read outside the rectangle yields the zero color. -/
def Image.getPixel (img : Image) (x y : Nat) : RGBA :=
  if x < img.width ∧ y < img.height then img.pix x y else RGBA.mk 0 0 0 0

/-- The codec-relevant fields of `Config` from `dnapng.go`.  The remaining
fields (`DecodeMode`, `InputFile`, `OutputFile`, `UseStdio`) only select
I/O endpoints in `main` and never reach the codec.  `PaddingChar` is a
string flag whose first rune `main` extracts; the extracted rune is
modelled.  The geometry fields are Go `int`s, hence `Int` here. -/
structure Config where
  blockSize : Int
  blocksPerRow : Int
  rowsPerBlock : Int
  paddingChar : Char
  transparentPad : Bool
deriving DecidableEq, Repr

/-- The distinct error identities produced by the codec in `dnapng.go`.
Each constructor corresponds to one `fmt.Errorf` site; `pixelError` is the
decoder's wrapping of a classification failure with the pixel position. -/
inductive CodecError where
  | invalidBlockSize
  | invalidBlocksPerRow
  | invalidRowsPerBlock
  | dimensionMismatch (w h : Nat) (blockSize : Int)
  | unclassifiable (intensity minDiff : Nat)
  | pixelError (x y : Nat) (e : CodecError)
deriving DecidableEq, Repr

/-- `dnaGrayscaleMap`: the four data symbols and their intensities, in
declaration order. -/
def dnaGrayscaleMap : List (Char × Nat) :=
  [(('A' : Char), 0), (('T' : Char), 64), (('C' : Char), 128), (('G' : Char), 192)]

/-- `dnaGrayscaleMap[base]` as used by the encoder: a Go map read that
yields the zero value 0 for any unmapped symbol. -/
def grayValue (base : Char) : Nat :=
  ((dnaGrayscaleMap.lookup base).getD 0)

/-- `findClosestDNABaseGrayscale`.  The Go loop ranges over the map in
unspecified order keeping the first strict minimum; this model folds in
declaration order.  The two can differ only when two intensities are
exactly equidistant, which forces `minDiff = 32`; the accompanying
error/ok outcome (all any caller inspects, since the only call site uses
tolerance 20 < 32) is order-independent.  `minDiff % 256` mirrors the
`uint8(minDiff)` cast; the fold always updates (every diff is ≤ 255 for
the 8-bit intensities this receives), so 256 never survives. -/
def findClosestDNABaseGrayscale (intensity : Nat) (tolerance : Nat) : Except CodecError Char :=
  let step := fun (acc : Nat × Char) (bm : Char × Nat) =>
    let diff := if intensity > bm.2 then intensity - bm.2 else bm.2 - intensity
    if diff < acc.1 then (diff, bm.1) else acc
  let res := dnaGrayscaleMap.foldl step (256, '?')
  if res.1 % 256 > tolerance then Except.error (CodecError.unclassifiable intensity res.1)
  else Except.ok res.2

/-- The inner `for dy` loop of the encoder's block fill, over the list of
`dy` offsets. -/
def fillColumn (x y : Nat) (c : RGBA) : Image → List Nat → Image
  | img, [] => img
  | img, dy :: dys => fillColumn x y c (setPixel img x (y + dy) c) dys

/-- The outer `for dx` loop of the encoder's block fill. -/
def fillSquareAux (x y bs : Nat) (c : RGBA) : Image → List Nat → Image
  | img, [] => img
  | img, dx :: dxs => fillSquareAux x y bs c (fillColumn (x + dx) y c img (List.range bs)) dxs

/-- The `blockSize × blockSize` uniform fill at origin `(x, y)`:
`for dx := 0; dx < bs; dx++ { for dy := 0; dy < bs; dy++ { img.Set(x+dx, y+dy, c) } }`. -/
def fillSquare (img : Image) (x y bs : Nat) (c : RGBA) : Image :=
  fillSquareAux x y bs c img (List.range bs)

/-- The inner `for x` loop of the transparent background fill. -/
def transparentFillRow (y : Nat) : Image → List Nat → Image
  | img, [] => img
  | img, x :: xs => transparentFillRow y (setPixel img x y (RGBA.mk 0 0 0 0)) xs

/-- The outer `for y` loop of the transparent background fill.
`img.Set(x, y, color.Transparent)` stores the premultiplied zero color. -/
def transparentFillRows (xs : List Nat) : Image → List Nat → Image
  | img, [] => img
  | img, y :: ys => transparentFillRows xs (transparentFillRow y img xs) ys

/-- The `TransparentPad` background fill over the whole `w × h` grid. -/
def transparentFill (img : Image) (w h : Nat) : Image :=
  transparentFillRows (List.range w) img (List.range h)

/-- The `for i, base := range blockSeq` loop of `dnaToPNGGrayscale`: the
second `Nat` argument is the running index `i`. -/
def encodeBases (bs bpr rpb block : Nat) : Image → Nat → List Char → Image
  | img, _, [] => img
  | img, i, base :: rest =>
    let col := i % bpr
    let row := i / bpr + block * rpb
    let x := col * bs
    let y := row * bs
    let grayVal := grayValue base
    encodeBases bs bpr rpb block
      (fillSquare img x y bs (RGBA.mk grayVal grayVal grayVal 255)) (i + 1) rest

/-- The `for block := 0; block < numBlocks; block++` loop: the second `Nat`
argument is the current `block`, the third the number of blocks still to
process.  `dnaSequence[start:end]` with `end = min(start+bpb, len)` is
`(drop start).take bpb`. -/
def encodeBlocksAux (seq : List Char) (bs bpr rpb bpb : Nat) : Image → Nat → Nat → Image
  | img, _, 0 => img
  | img, block, k + 1 =>
    let start := block * bpb
    let blockSeq := (seq.drop start).take bpb
    encodeBlocksAux seq bs bpr rpb bpb
      (encodeBases bs bpr rpb block img 0 blockSeq) (block + 1) k

/-- `dnaToPNGGrayscale` from `dnapng.go`, at the pixel-grid boundary:
validation, grid allocation, optional transparent background fill, and
the per-block quantized fills.  `png.Encode` is the spec's black box and
is not modelled; the grid handed to it is returned. -/
def dnaToPNGGrayscale (dnaSequence : List Char) (cfg : Config) : Except CodecError Image :=
  if cfg.blockSize ≤ 0 then Except.error CodecError.invalidBlockSize
  else if cfg.blocksPerRow ≤ 0 then Except.error CodecError.invalidBlocksPerRow
  else if cfg.rowsPerBlock ≤ 0 then Except.error CodecError.invalidRowsPerBlock
  else
    let bs := cfg.blockSize.toNat
    let bpr := cfg.blocksPerRow.toNat
    let rpb := cfg.rowsPerBlock.toNat
    let basesPerBlock := bpr * rpb
    let numBlocks := (dnaSequence.length + basesPerBlock - 1) / basesPerBlock
    let imgWidth := bpr * bs
    let imgHeight := numBlocks * rpb * bs
    let img0 := Image.new imgWidth imgHeight
    let img1 := if cfg.transparentPad then transparentFill img0 imgWidth imgHeight else img0
    Except.ok (encodeBlocksAux dnaSequence bs bpr rpb basesPerBlock img1 0 numBlocks)

/-- The body of the decoder's innermost loop: sample the block's top-left
pixel, emit the padding symbol when it is semi-transparent
(`a < 0xFFFF/2` after the `*0x101` channel scaling), otherwise classify
the equal-weighted intensity, wrapping a failure with the pixel position
as `fmt.Errorf(..., %w)` does. -/
def samplePixel (img : Image) (pixelX pixelY : Nat) (pad : Char) (tol : Nat) :
    Except CodecError Char :=
  let p := img.getPixel pixelX pixelY
  let r := p.r * 257
  let g := p.g * 257
  let b := p.b * 257
  let a := p.a * 257
  if a < 65535 / 2 then Except.ok pad
  else
    let intensity := (r + g + b) / 3 / 257
    match findClosestDNABaseGrayscale intensity tol with
    | Except.error e => Except.error (CodecError.pixelError pixelX pixelY e)
    | Except.ok base => Except.ok base

/-- The `for rowInBlock` loop, including its early `break` once
`blockRow + rowInBlock >= rowsOfBlocks`.  The accumulator is the
`strings.Builder` contents; an error return discards it, as the Go
function returns before anything reaches the writer. -/
def decodeRows (img : Image) (bs rob : Nat) (pad : Char) (tol : Nat) (blockRow col : Nat) :
    List Nat → List Char → Except CodecError (List Char)
  | [], acc => Except.ok acc
  | rib :: ribs, acc =>
    if rob ≤ blockRow + rib then Except.ok acc
    else
      match samplePixel img (col * bs) ((blockRow + rib) * bs) pad tol with
      | Except.error e => Except.error e
      | Except.ok c => decodeRows img bs rob pad tol blockRow col ribs (acc ++ [c])

/-- The `for col` loop of the decoder. -/
def decodeCols (img : Image) (bs rob rpb : Nat) (pad : Char) (tol : Nat) (blockRow : Nat) :
    List Nat → List Char → Except CodecError (List Char)
  | [], acc => Except.ok acc
  | col :: cols, acc =>
    match decodeRows img bs rob pad tol blockRow col (List.range rpb) acc with
    | Except.error e => Except.error e
    | Except.ok acc2 => decodeCols img bs rob rpb pad tol blockRow cols acc2

/-- The `for blockRow := 0; blockRow < rowsOfBlocks; blockRow += rpb` loop.
With `RowsPerBlock ≤ 0` the Go loop never terminates (and never emits
anything); that is modelled by fuel exhaustion returning `none`, while the
step `blockRow + rpb` with `rpb = (RowsPerBlock).toNat = 0` reproduces the
stuck iteration.  For any positive `RowsPerBlock` the fuel passed by
`pngToDNAGrayscale` suffices and the model is exact. -/
def decodeOuter (img : Image) (bs bpr rob rpb : Nat) (pad : Char) (tol : Nat) :
    Nat → Nat → List Char → Option (Except CodecError (List Char))
  | 0, _, _ => none
  | fuel + 1, blockRow, acc =>
    if blockRow < rob then
      match decodeCols img bs rob rpb pad tol blockRow (List.range bpr) acc with
      | Except.error e => some (Except.error e)
      | Except.ok acc2 => decodeOuter img bs bpr rob rpb pad tol fuel (blockRow + rpb) acc2
    else some (Except.ok acc)

/-- `pngToDNAGrayscale` from `dnapng.go`, at the pixel-grid boundary:
only `BlockSize` is validated, the dimensions must be exact multiples of
it, `blocksPerRow`/`rowsOfBlocks` are derived from the image (never from
`cfg.BlocksPerRow`), the tolerance is the hard-coded 20, and the nested
loops classify one sampled pixel per block.  `none` models the
non-terminating run that a non-positive `RowsPerBlock` causes. -/
def pngToDNAGrayscale (img : Image) (cfg : Config) :
    Option (Except CodecError (List Char)) :=
  if cfg.blockSize ≤ 0 then some (Except.error CodecError.invalidBlockSize)
  else
    let bs := cfg.blockSize.toNat
    if img.width % bs ≠ 0 ∨ img.height % bs ≠ 0 then
      some (Except.error (CodecError.dimensionMismatch img.width img.height cfg.blockSize))
    else
      let blocksPerRow := img.width / bs
      let rowsOfBlocks := img.height / bs
      decodeOuter img bs blocksPerRow rowsOfBlocks cfg.rowsPerBlock.toNat
        cfg.paddingChar 20 (rowsOfBlocks + 1) 0 []

/-- Encode then decode with the same configuration: the composition the
spec's round-trip properties quantify over. -/
def roundTrip (seq : List Char) (cfg : Config) :
    Except CodecError (Option (Except CodecError (List Char))) :=
  (dnaToPNGGrayscale seq cfg).map (fun img => pngToDNAGrayscale img cfg)

/-- The flag defaults of `parseFlags`: `-b 10 -cols 40 -rows 1 -pad N
-transpad=true`. -/
def defaultConfig : Config :=
  { blockSize := 10, blocksPerRow := 40, rowsPerBlock := 1,
    paddingChar := 'N', transparentPad := true }

/-- The four data symbols of the codec. -/
def dataSymbols : List Char := ['A', 'T', 'C', 'G']

/-! ### Basic pixel-grid lemmas

The imperative write loops are first related to a proof-side normal form,
`writeList`: a sequence of same-color `setPixel` writes along a point list. -/

/-- Proof-side normal form for the write loops. -/
def writeList (c : RGBA) : Image → List (Nat × Nat) → Image
  | img, [] => img
  | img, p :: ps => writeList c (setPixel img p.1 p.2 c) ps

theorem setPixel_width (img : Image) (x y : Nat) (c : RGBA) :
    (setPixel img x y c).width = img.width := by
  unfold setPixel; split <;> rfl

theorem setPixel_height (img : Image) (x y : Nat) (c : RGBA) :
    (setPixel img x y c).height = img.height := by
  unfold setPixel; split <;> rfl

theorem setPixel_pix (img : Image) (x y : Nat) (c : RGBA) (px py : Nat) :
    (setPixel img x y c).pix px py =
      if px = x ∧ py = y ∧ px < img.width ∧ py < img.height then c else img.pix px py := by
  unfold setPixel
  by_cases h : x < img.width ∧ y < img.height
  · rw [if_pos h]
    show (if px = x ∧ py = y then c else img.pix px py) = _
    by_cases hp : px = x ∧ py = y
    · obtain ⟨h1, h2⟩ := hp
      subst h1; subst h2
      rw [if_pos ⟨rfl, rfl⟩, if_pos ⟨rfl, rfl, h.1, h.2⟩]
    · rw [if_neg hp, if_neg fun hc => hp ⟨hc.1, hc.2.1⟩]
  · rw [if_neg h, if_neg]
    rintro ⟨h1, h2, h3, h4⟩
    subst h1; subst h2
    exact h ⟨h3, h4⟩

theorem writeList_width (c : RGBA) (pts : List (Nat × Nat)) (img : Image) :
    (writeList c img pts).width = img.width := by
  induction pts generalizing img with
  | nil => rfl
  | cons p ps ih => rw [writeList, ih, setPixel_width]

theorem writeList_height (c : RGBA) (pts : List (Nat × Nat)) (img : Image) :
    (writeList c img pts).height = img.height := by
  induction pts generalizing img with
  | nil => rfl
  | cons p ps ih => rw [writeList, ih, setPixel_height]

theorem writeList_pix (c : RGBA) (pts : List (Nat × Nat)) (img : Image) (px py : Nat) :
    (writeList c img pts).pix px py =
      if (px, py) ∈ pts ∧ px < img.width ∧ py < img.height then c else img.pix px py := by
  induction pts generalizing img with
  | nil =>
    rw [writeList, if_neg]
    rintro ⟨hm, -⟩
    exact List.not_mem_nil _ hm
  | cons p ps ih =>
    rw [writeList, ih, setPixel_width, setPixel_height, setPixel_pix]
    simp only [List.mem_cons, Prod.ext_iff]
    split_ifs <;> tauto

theorem writeList_append (c : RGBA) (a b : List (Nat × Nat)) (img : Image) :
    writeList c img (a ++ b) = writeList c (writeList c img a) b := by
  induction a generalizing img with
  | nil => rfl
  | cons p ps ih =>
    simp only [List.cons_append, writeList]
    exact ih _

theorem fillColumn_eq_writeList (x y : Nat) (c : RGBA) (dys : List Nat) (img : Image) :
    fillColumn x y c img dys = writeList c img (dys.map (fun dy => (x, y + dy))) := by
  induction dys generalizing img with
  | nil => rfl
  | cons d ds ih =>
    rw [fillColumn, ih, List.map_cons, writeList]

theorem fillSquareAux_eq_writeList (x y bs : Nat) (c : RGBA) (dxs : List Nat) (img : Image) :
    fillSquareAux x y bs c img dxs =
      writeList c img
        (dxs.flatMap (fun dx => (List.range bs).map (fun dy => (x + dx, y + dy)))) := by
  induction dxs generalizing img with
  | nil => rfl
  | cons d ds ih =>
    rw [fillSquareAux, ih, List.flatMap_cons, writeList_append, fillColumn_eq_writeList]

theorem fillSquare_width (img : Image) (x y bs : Nat) (c : RGBA) :
    (fillSquare img x y bs c).width = img.width := by
  rw [fillSquare, fillSquareAux_eq_writeList, writeList_width]

theorem fillSquare_height (img : Image) (x y bs : Nat) (c : RGBA) :
    (fillSquare img x y bs c).height = img.height := by
  rw [fillSquare, fillSquareAux_eq_writeList, writeList_height]

theorem fillSquare_pix (img : Image) (x y bs : Nat) (c : RGBA) (px py : Nat) :
    (fillSquare img x y bs c).pix px py =
      if x ≤ px ∧ px < x + bs ∧ y ≤ py ∧ py < y + bs ∧ px < img.width ∧ py < img.height then c
      else img.pix px py := by
  rw [fillSquare, fillSquareAux_eq_writeList, writeList_pix]
  have hmem : ((px, py) ∈ (List.range bs).flatMap
      (fun dx => (List.range bs).map (fun dy => (x + dx, y + dy)))) ↔
      (x ≤ px ∧ px < x + bs ∧ y ≤ py ∧ py < y + bs) := by
    simp only [List.mem_flatMap, List.mem_map, List.mem_range, Prod.mk.injEq]
    constructor
    · rintro ⟨dx, hdx, dy, hdy, h1, h2⟩
      omega
    · rintro ⟨h1, h2, h3, h4⟩
      exact ⟨px - x, by omega, py - y, by omega, by omega, by omega⟩
  simp only [hmem]
  split_ifs <;> tauto

theorem transparentFillRow_eq_writeList (y : Nat) (xs : List Nat) (img : Image) :
    transparentFillRow y img xs = writeList (RGBA.mk 0 0 0 0) img (xs.map (fun x => (x, y))) := by
  induction xs generalizing img with
  | nil => rfl
  | cons x xs ih =>
    rw [transparentFillRow, ih, List.map_cons, writeList]

theorem transparentFillRows_eq_writeList (xs ys : List Nat) (img : Image) :
    transparentFillRows xs img ys =
      writeList (RGBA.mk 0 0 0 0) img (ys.flatMap (fun y => xs.map (fun x => (x, y)))) := by
  induction ys generalizing img with
  | nil => rfl
  | cons y ys ih =>
    rw [transparentFillRows, ih, List.flatMap_cons, writeList_append,
      transparentFillRow_eq_writeList]

theorem transparentFill_width (img : Image) (w h : Nat) :
    (transparentFill img w h).width = img.width := by
  rw [transparentFill, transparentFillRows_eq_writeList, writeList_width]

theorem transparentFill_height (img : Image) (w h : Nat) :
    (transparentFill img w h).height = img.height := by
  rw [transparentFill, transparentFillRows_eq_writeList, writeList_height]

/-- The transparent background fill over a zero-initialized grid leaves every
pixel at `(0,0,0,0)`: the written value coincides with the grid's zero value. -/
theorem transparentFill_new_pix (w h : Nat) (px py : Nat) :
    (transparentFill (Image.new w h) w h).pix px py = RGBA.mk 0 0 0 0 := by
  rw [transparentFill, transparentFillRows_eq_writeList, writeList_pix]
  split_ifs <;> rfl

/-! ### The position-to-pixel mapping and its arithmetic -/

/-- The local index (within a block group) that owns pixel `(px, py)`:
the inverse of the encoder's `col = i mod bpr`, `row = i div bpr` layout. -/
def localIdx (bs bpr rpb px py : Nat) : Nat :=
  (py / bs % rpb) * bpr + px / bs

/-- The absolute sequence position that owns pixel `(px, py)`. -/
def globalIdx (bs bpr rpb px py : Nat) : Nat :=
  (py / bs / rpb) * (bpr * rpb) + localIdx bs bpr rpb px py

theorem div_window {bs p q : Nat} (hbs : 0 < bs) :
    p / bs = q ↔ q * bs ≤ p ∧ p < q * bs + bs := by
  constructor
  · rintro rfl
    have h1 := Nat.div_add_mod p bs
    have h2 := Nat.mod_lt p hbs
    have h3 : p / bs * bs = bs * (p / bs) := Nat.mul_comm ..
    omega
  · rintro ⟨h1, h2⟩
    exact Nat.div_eq_of_lt_le h1 (by rw [Nat.succ_mul]; omega)

theorem localIdx_lt (bs bpr rpb px py : Nat) (hrpb : 0 < rpb) (hcx : px / bs < bpr) :
    localIdx bs bpr rpb px py < bpr * rpb := by
  unfold localIdx
  have hm : py / bs % rpb < rpb := Nat.mod_lt _ hrpb
  have f1 : (py / bs % rpb) * bpr ≤ (rpb - 1) * bpr :=
    mul_le_mul_right' (by omega) bpr
  have f2 : (rpb - 1 + 1) * bpr = (rpb - 1) * bpr + bpr := Nat.succ_mul _ _
  have f3 : rpb - 1 + 1 = rpb := Nat.sub_add_cancel hrpb
  have f4 : bpr * rpb = rpb * bpr := Nat.mul_comm bpr rpb
  rw [f3] at f2
  omega

/-- A pixel's block coordinates point at the fill of local position `i0` of
block `block` exactly when the inverse mapping recovers `block` and `i0`. -/
theorem blockCoords_iff (bs bpr rpb block i0 px py : Nat) (hbpr : 0 < bpr) (hrpb : 0 < rpb)
    (hi0 : i0 < bpr * rpb) (hcx : px / bs < bpr) :
    (px / bs = i0 % bpr ∧ py / bs = i0 / bpr + block * rpb) ↔
      (py / bs / rpb = block ∧ localIdx bs bpr rpb px py = i0) := by
  unfold localIdx
  have hq : i0 / bpr < rpb := by
    rw [Nat.div_lt_iff_lt_mul hbpr]
    rw [Nat.mul_comm rpb bpr]
    exact hi0
  constructor
  · rintro ⟨h1, h2⟩
    have hdiv : (i0 / bpr + block * rpb) / rpb = i0 / bpr / rpb + block :=
      Nat.add_mul_div_right _ _ hrpb
    have hz : i0 / bpr / rpb = 0 := Nat.div_eq_of_lt hq
    have hmod : (i0 / bpr + block * rpb) % rpb = i0 / bpr % rpb :=
      Nat.add_mul_mod_self_right ..
    have hmod2 : i0 / bpr % rpb = i0 / bpr := Nat.mod_eq_of_lt hq
    have hdm : i0 / bpr * bpr + i0 % bpr = i0 := Nat.div_add_mod' i0 bpr
    constructor
    · rw [h2, hdiv, hz]
      omega
    · rw [h1, h2, hmod, hmod2]
      exact hdm
  · rintro ⟨hB, hL⟩
    have hmlt : py / bs % rpb < rpb := Nat.mod_lt _ hrpb
    have hdiv2 : (bpr * (py / bs % rpb) + px / bs) / bpr = py / bs % rpb + px / bs / bpr :=
      Nat.mul_add_div hbpr _ _
    have hz2 : px / bs / bpr = 0 := Nat.div_eq_of_lt hcx
    have hmod3 : (bpr * (py / bs % rpb) + px / bs) % bpr = px / bs % bpr :=
      Nat.mul_add_mod ..
    have hmod4 : px / bs % bpr = px / bs := Nat.mod_eq_of_lt hcx
    have hcomm : (py / bs % rpb) * bpr = bpr * (py / bs % rpb) := Nat.mul_comm ..
    have hi0div : i0 / bpr = py / bs % rpb := by
      rw [← hL, hcomm, hdiv2, hz2]
      omega
    have hi0mod : i0 % bpr = px / bs := by
      rw [← hL, hcomm, hmod3, hmod4]
    have hdm2 : py / bs % rpb + py / bs / rpb * rpb = py / bs := Nat.mod_add_div' ..
    rw [hB] at hdm2
    constructor
    · omega
    · rw [hi0div]
      omega

theorem getD_drop_take (l : List Char) (s t i : Nat) (d : Char)
    (h : i < ((l.drop s).take t).length) :
    ((l.drop s).take t).getD i d = l.getD (s + i) d := by
  have hlen : i < min t (l.length - s) := by
    simpa [List.length_take, List.length_drop] using h
  have h2 : s + i < l.length := by omega
  rw [List.getD_eq_getElem _ _ h, List.getD_eq_getElem _ _ h2]
  rw [List.getElem_take, List.getElem_drop]

/-! ### Characterizing the encoder's pixel output -/

theorem encodeBases_width (bs bpr rpb block : Nat) (blockSeq : List Char) :
    ∀ (i0 : Nat) (img : Image),
      (encodeBases bs bpr rpb block img i0 blockSeq).width = img.width := by
  induction blockSeq with
  | nil => intro i0 img; rfl
  | cons base rest ih =>
    intro i0 img
    rw [encodeBases, ih, fillSquare_width]

theorem encodeBases_height (bs bpr rpb block : Nat) (blockSeq : List Char) :
    ∀ (i0 : Nat) (img : Image),
      (encodeBases bs bpr rpb block img i0 blockSeq).height = img.height := by
  induction blockSeq with
  | nil => intro i0 img; rfl
  | cons base rest ih =>
    intro i0 img
    rw [encodeBases, ih, fillSquare_height]

/-- One block's fills recolor a pixel exactly when the pixel's block
coordinates name block `block` and a local position inside the window
`[i0, i0 + |blockSeq|)` that the loop writes. -/
theorem encodeBases_pix (bs bpr rpb block : Nat) (hbs : 0 < bs) (hbpr : 0 < bpr)
    (hrpb : 0 < rpb) (px py : Nat) (blockSeq : List Char) :
    ∀ (i0 : Nat) (img : Image), px < img.width → py < img.height →
      img.width = bpr * bs → i0 + blockSeq.length ≤ bpr * rpb →
      (encodeBases bs bpr rpb block img i0 blockSeq).pix px py =
        if py / bs / rpb = block ∧ i0 ≤ localIdx bs bpr rpb px py ∧
            localIdx bs bpr rpb px py < i0 + blockSeq.length
        then
          RGBA.mk (grayValue (blockSeq.getD (localIdx bs bpr rpb px py - i0) 'A'))
            (grayValue (blockSeq.getD (localIdx bs bpr rpb px py - i0) 'A'))
            (grayValue (blockSeq.getD (localIdx bs bpr rpb px py - i0) 'A')) 255
        else img.pix px py := by
  induction blockSeq with
  | nil =>
    intro i0 img hpx hpy hw hlen
    rw [encodeBases, if_neg]
    rintro ⟨-, h1, h2⟩
    simp only [List.length_nil] at h2
    omega
  | cons base rest ih =>
    intro i0 img hpx hpy hw hlen
    have hcx : px / bs < bpr := by
      rw [Nat.div_lt_iff_lt_mul hbs, Nat.mul_comm bpr bs] at *
      omega
    have hi0 : i0 < bpr * rpb := by
      simp only [List.length_cons] at hlen
      omega
    have hstep :
        encodeBases bs bpr rpb block img i0 (base :: rest) =
          encodeBases bs bpr rpb block
            (fillSquare img (i0 % bpr * bs) ((i0 / bpr + block * rpb) * bs) bs
              (RGBA.mk (grayValue base) (grayValue base) (grayValue base) 255))
            (i0 + 1) rest := rfl
    rw [hstep]
    rw [ih (i0 + 1) _ (by rw [fillSquare_width]; exact hpx)
      (by rw [fillSquare_height]; exact hpy)
      (by rw [fillSquare_width]; exact hw)
      (by simp only [List.length_cons] at hlen; omega)]
    rw [fillSquare_pix]
    set L := localIdx bs bpr rpb px py with hLdef
    by_cases hC1 : py / bs / rpb = block ∧ i0 + 1 ≤ L ∧ L < i0 + 1 + rest.length
    · rw [if_pos hC1, if_pos ⟨hC1.1, by omega, by simp only [List.length_cons]; omega⟩]
      rw [show L - i0 = (L - (i0 + 1)) + 1 by omega, List.getD_cons_succ]
    · rw [if_neg hC1]
      by_cases hC0 : py / bs / rpb = block ∧ L = i0
      · have hcov := (blockCoords_iff bs bpr rpb block i0 px py hbpr hrpb hi0 hcx).mpr
          ⟨hC0.1, hC0.2⟩
        have hx := (div_window (p := px) (q := i0 % bpr) hbs).mp hcov.1
        have hy := (div_window (p := py) (q := i0 / bpr + block * rpb) hbs).mp hcov.2
        rw [if_pos ⟨hx.1, hx.2, hy.1, hy.2, hpx, hpy⟩]
        rw [if_pos ⟨hC0.1, by omega, by simp only [List.length_cons]; omega⟩]
        rw [show L - i0 = 0 by omega, List.getD_cons_zero]
      · rw [if_neg, if_neg]
        · rintro ⟨hB, h1, h2⟩
          simp only [List.length_cons] at h2
          rcases Nat.eq_or_lt_of_le h1 with he | hlt
          · exact hC0 ⟨hB, he.symm⟩
          · exact hC1 ⟨hB, by omega, by omega⟩
        · rintro ⟨hx1, hx2, hy1, hy2, -, -⟩
          have hxeq : px / bs = i0 % bpr := (div_window hbs).mpr ⟨hx1, hx2⟩
          have hyeq : py / bs = i0 / bpr + block * rpb := (div_window hbs).mpr ⟨hy1, hy2⟩
          exact hC0 ((blockCoords_iff bs bpr rpb block i0 px py hbpr hrpb hi0 hcx).mp
            ⟨hxeq, hyeq⟩)

theorem encodeBlocksAux_width (seq : List Char) (bs bpr rpb bpb : Nat) :
    ∀ (k block : Nat) (img : Image),
      (encodeBlocksAux seq bs bpr rpb bpb img block k).width = img.width := by
  intro k
  induction k with
  | zero => intro block img; rfl
  | succ k ih =>
    intro block img
    rw [encodeBlocksAux, ih, encodeBases_width]

theorem encodeBlocksAux_height (seq : List Char) (bs bpr rpb bpb : Nat) :
    ∀ (k block : Nat) (img : Image),
      (encodeBlocksAux seq bs bpr rpb bpb img block k).height = img.height := by
  intro k
  induction k with
  | zero => intro block img; rfl
  | succ k ih =>
    intro block img
    rw [encodeBlocksAux, ih, encodeBases_height]

/-- The block loop recolors a pixel exactly when its sequence position was
written by one of the processed blocks. -/
theorem encodeBlocksAux_pix (seq : List Char) (bs bpr rpb bpb : Nat) (hbs : 0 < bs)
    (hbpr : 0 < bpr) (hrpb : 0 < rpb) (hbpb : bpb = bpr * rpb) (px py : Nat) :
    ∀ (k block : Nat) (img : Image), px < img.width → py < img.height →
      img.width = bpr * bs →
      (encodeBlocksAux seq bs bpr rpb bpb img block k).pix px py =
        if block ≤ py / bs / rpb ∧ py / bs / rpb < block + k ∧
            localIdx bs bpr rpb px py < ((seq.drop (py / bs / rpb * bpb)).take bpb).length
        then
          RGBA.mk
            (grayValue (seq.getD (py / bs / rpb * bpb + localIdx bs bpr rpb px py) 'A'))
            (grayValue (seq.getD (py / bs / rpb * bpb + localIdx bs bpr rpb px py) 'A'))
            (grayValue (seq.getD (py / bs / rpb * bpb + localIdx bs bpr rpb px py) 'A')) 255
        else img.pix px py := by
  intro k
  induction k with
  | zero =>
    intro block img hpx hpy hw
    rw [encodeBlocksAux, if_neg]
    rintro ⟨h1, h2, -⟩
    omega
  | succ k ih =>
    intro block img hpx hpy hw
    have hstep : encodeBlocksAux seq bs bpr rpb bpb img block (k + 1) =
        encodeBlocksAux seq bs bpr rpb bpb
          (encodeBases bs bpr rpb block img 0 ((seq.drop (block * bpb)).take bpb))
          (block + 1) k := rfl
    rw [hstep]
    rw [ih (block + 1) _ (by rw [encodeBases_width]; exact hpx)
      (by rw [encodeBases_height]; exact hpy)
      (by rw [encodeBases_width]; exact hw)]
    rw [encodeBases_pix bs bpr rpb block hbs hbpr hrpb px py _ 0 img hpx hpy hw
      (by simp only [List.length_take, List.length_drop]; omega)]
    by_cases hC1 : block + 1 ≤ py / bs / rpb ∧ py / bs / rpb < block + 1 + k ∧
        localIdx bs bpr rpb px py < ((seq.drop (py / bs / rpb * bpb)).take bpb).length
    · rw [if_pos hC1, if_pos ⟨by omega, by omega, hC1.2.2⟩]
    · rw [if_neg hC1]
      by_cases hC0 : py / bs / rpb = block ∧
          localIdx bs bpr rpb px py < ((seq.drop (block * bpb)).take bpb).length
      · rw [if_pos ⟨hC0.1, Nat.zero_le _, by omega⟩]
        rw [if_pos ⟨by omega, by omega, by rw [hC0.1]; exact hC0.2⟩]
        rw [show localIdx bs bpr rpb px py - 0 = localIdx bs bpr rpb px py from Nat.sub_zero _]
        rw [getD_drop_take seq (block * bpb) bpb (localIdx bs bpr rpb px py) 'A' hC0.2]
        rw [hC0.1]
      · have hg0 : ¬(py / bs / rpb = block ∧ 0 ≤ localIdx bs bpr rpb px py ∧
            localIdx bs bpr rpb px py <
              0 + ((seq.drop (block * bpb)).take bpb).length) := by
          rintro ⟨ha, -, hb⟩
          exact hC0 ⟨ha, by omega⟩
        have hg1 : ¬(block ≤ py / bs / rpb ∧ py / bs / rpb < block + (k + 1) ∧
            localIdx bs bpr rpb px py <
              ((seq.drop (py / bs / rpb * bpb)).take bpb).length) := by
          rintro ⟨ha, hb, hc⟩
          by_cases hblk : py / bs / rpb = block
          · refine hC0 ⟨hblk, ?_⟩
            rw [← hblk]
            exact hc
          · exact hC1 ⟨by omega, by omega, hc⟩
        rw [if_neg hg0, if_neg hg1]

/-- The encoder on a valid configuration: it succeeds, the grid has the
layout dimensions, and every in-bounds pixel is the opaque quantization of
the sequence symbol owning it — or the transparent zero value past the end
of the sequence (for either `transparentPad` setting, since the background
fill writes the grid's zero value). -/
theorem dnaToPNGGrayscale_spec (seq : List Char) (cfg : Config)
    (h1 : 0 < cfg.blockSize) (h2 : 0 < cfg.blocksPerRow) (h3 : 0 < cfg.rowsPerBlock) :
    ∃ img, dnaToPNGGrayscale seq cfg = Except.ok img ∧
      img.width = cfg.blocksPerRow.toNat * cfg.blockSize.toNat ∧
      img.height = ((seq.length + cfg.blocksPerRow.toNat * cfg.rowsPerBlock.toNat - 1) /
          (cfg.blocksPerRow.toNat * cfg.rowsPerBlock.toNat)) * cfg.rowsPerBlock.toNat *
          cfg.blockSize.toNat ∧
      ∀ px py, px < img.width → py < img.height →
        img.pix px py =
          if globalIdx cfg.blockSize.toNat cfg.blocksPerRow.toNat cfg.rowsPerBlock.toNat
              px py < seq.length
          then
            RGBA.mk
              (grayValue (seq.getD (globalIdx cfg.blockSize.toNat cfg.blocksPerRow.toNat
                cfg.rowsPerBlock.toNat px py) 'A'))
              (grayValue (seq.getD (globalIdx cfg.blockSize.toNat cfg.blocksPerRow.toNat
                cfg.rowsPerBlock.toNat px py) 'A'))
              (grayValue (seq.getD (globalIdx cfg.blockSize.toNat cfg.blocksPerRow.toNat
                cfg.rowsPerBlock.toNat px py) 'A')) 255
          else RGBA.mk 0 0 0 0 := by
  have hbs : 0 < cfg.blockSize.toNat := by omega
  have hbpr : 0 < cfg.blocksPerRow.toNat := by omega
  have hrpb : 0 < cfg.rowsPerBlock.toNat := by omega
  set bs := cfg.blockSize.toNat with hbsdef
  set bpr := cfg.blocksPerRow.toNat with hbprdef
  set rpb := cfg.rowsPerBlock.toNat with hrpbdef
  set nb := (seq.length + bpr * rpb - 1) / (bpr * rpb) with hnbdef
  set w := bpr * bs with hwdef
  set h := nb * rpb * bs with hhdef
  set img1 := (if cfg.transparentPad then transparentFill (Image.new w h) w h
    else Image.new w h) with himg1def
  have henc : dnaToPNGGrayscale seq cfg =
      Except.ok (encodeBlocksAux seq bs bpr rpb (bpr * rpb) img1 0 nb) := by
    unfold dnaToPNGGrayscale
    rw [if_neg (by omega), if_neg (by omega), if_neg (by omega)]
  have himg1w : img1.width = w := by
    rw [himg1def]
    split
    · rw [transparentFill_width]; rfl
    · rfl
  have himg1h : img1.height = h := by
    rw [himg1def]
    split
    · rw [transparentFill_height]; rfl
    · rfl
  have himg1pix : ∀ px py, img1.pix px py = RGBA.mk 0 0 0 0 := by
    intro px py
    rw [himg1def]
    split
    · rw [transparentFill_new_pix]
    · rfl
  refine ⟨_, henc, ?_, ?_, ?_⟩
  · rw [encodeBlocksAux_width, himg1w]
  · rw [encodeBlocksAux_height, himg1h]
  · intro px py hpx hpy
    rw [encodeBlocksAux_width, himg1w] at hpx
    rw [encodeBlocksAux_height, himg1h] at hpy
    rw [encodeBlocksAux_pix seq bs bpr rpb (bpr * rpb) hbs hbpr hrpb rfl px py nb 0 img1
      (by rw [himg1w]; exact hpx) (by rw [himg1h]; exact hpy) (by rw [himg1w])]
    have hcx : px / bs < bpr := by
      rw [Nat.div_lt_iff_lt_mul hbs, Nat.mul_comm bpr bs] at *
      omega
    have hL : localIdx bs bpr rpb px py < bpr * rpb := localIdx_lt bs bpr rpb px py hrpb hcx
    have hB : py / bs / rpb < nb := by
      rw [Nat.div_lt_iff_lt_mul hrpb, Nat.div_lt_iff_lt_mul hbs]
      exact hpy
    have hceil : seq.length ≤ nb * (bpr * rpb) := by
      have hd : (bpr * rpb) * nb + (seq.length + bpr * rpb - 1) % (bpr * rpb) =
          seq.length + bpr * rpb - 1 := by
        rw [hnbdef]
        exact Nat.div_add_mod ..
      have hm := Nat.mod_lt (seq.length + bpr * rpb - 1) (by omega : 0 < bpr * rpb)
      have hc : (bpr * rpb) * nb = nb * (bpr * rpb) := Nat.mul_comm ..
      omega
    simp only [List.length_take, List.length_drop]
    by_cases hcond : globalIdx bs bpr rpb px py < seq.length
    · rw [if_pos hcond]
      unfold globalIdx at hcond
      rw [if_pos ⟨Nat.zero_le _, by omega, by omega⟩]
      rfl
    · rw [if_neg hcond, if_neg, himg1pix]
      rintro ⟨-, hb, hc⟩
      unfold globalIdx at hcond
      omega

/-! ### Decoding the encoder's pixels -/

deriving instance DecidableEq for Except

/-- `samplePixel` with its local bindings inlined. -/
theorem samplePixel_eq (img : Image) (px py : Nat) (pad : Char) (tol : Nat) :
    samplePixel img px py pad tol =
      if (img.getPixel px py).a * 257 < 65535 / 2 then Except.ok pad
      else
        match findClosestDNABaseGrayscale
            (((img.getPixel px py).r * 257 + (img.getPixel px py).g * 257 +
              (img.getPixel px py).b * 257) / 3 / 257) tol with
        | Except.error e => Except.error (CodecError.pixelError px py e)
        | Except.ok base => Except.ok base := rfl

/-- Classification inverts quantization on the four data symbols. -/
theorem findClosest_grayValue (c : Char) (hc : c ∈ dataSymbols) :
    findClosestDNABaseGrayscale (grayValue c) 20 = Except.ok c := by
  fin_cases hc <;> decide

/-- Classification of the decoder's rescaled intensity of an opaque uniform
block inverts quantization on any symbol. -/
theorem findClosest_scaled (c : Char) (hc : c ∈ dataSymbols) :
    findClosestDNABaseGrayscale
      ((grayValue c * 257 + grayValue c * 257 + grayValue c * 257) / 3 / 257) 20 =
      Except.ok c := by
  fin_cases hc <;> decide

/-- A semi-transparent sampled pixel short-circuits to the padding symbol:
no classification result is consulted, whatever the RGB channels hold. -/
theorem samplePixel_transparent (img : Image) (px py : Nat) (pad : Char) (tol : Nat)
    (h : (img.getPixel px py).a * 257 < 65535 / 2) :
    samplePixel img px py pad tol = Except.ok pad := by
  rw [samplePixel_eq, if_pos h]

/-- Sampling an opaque uniform block written by the quantizer recovers the
data symbol it quantized. -/
theorem samplePixel_opaque (img : Image) (px py : Nat) (pad : Char) (c : Char)
    (hc : c ∈ dataSymbols) (hpx : px < img.width) (hpy : py < img.height)
    (hpix : img.pix px py = RGBA.mk (grayValue c) (grayValue c) (grayValue c) 255) :
    samplePixel img px py pad 20 = Except.ok c := by
  have hgp : img.getPixel px py = RGBA.mk (grayValue c) (grayValue c) (grayValue c) 255 := by
    unfold Image.getPixel
    rw [if_pos ⟨hpx, hpy⟩, hpix]
  rw [samplePixel_eq, hgp]
  show (if 255 * 257 < 65535 / 2 then Except.ok pad
      else
        match findClosestDNABaseGrayscale
            ((grayValue c * 257 + grayValue c * 257 + grayValue c * 257) / 3 / 257) 20 with
        | Except.error e => Except.error (CodecError.pixelError px py e)
        | Except.ok base => Except.ok base) = Except.ok c
  rw [if_neg (by decide), findClosest_scaled c hc]

/-- The row loop, when no sample errors and no break triggers, appends one
symbol per row offset. -/
theorem decodeRows_ok (img : Image) (bs rob : Nat) (pad : Char) (tol : Nat)
    (blockRow col : Nat) (f : Nat → Char) :
    ∀ (ribs : List Nat) (acc : List Char),
      (∀ rib ∈ ribs, blockRow + rib < rob) →
      (∀ rib ∈ ribs,
        samplePixel img (col * bs) ((blockRow + rib) * bs) pad tol = Except.ok (f rib)) →
      decodeRows img bs rob pad tol blockRow col ribs acc = Except.ok (acc ++ ribs.map f) := by
  intro ribs
  induction ribs with
  | nil =>
    intro acc h1 h2
    simp [decodeRows]
  | cons r rs ih =>
    intro acc h1 h2
    rw [decodeRows]
    rw [if_neg (by have := h1 r (List.mem_cons_self ..); omega)]
    rw [h2 r (List.mem_cons_self ..)]
    show decodeRows img bs rob pad tol blockRow col rs (acc ++ [f r]) = _
    rw [ih (acc ++ [f r]) (fun rib hm => h1 rib (List.mem_cons_of_mem _ hm))
      (fun rib hm => h2 rib (List.mem_cons_of_mem _ hm))]
    simp

/-- The column loop under the same assumptions. -/
theorem decodeCols_ok (img : Image) (bs rob rpb : Nat) (pad : Char) (tol : Nat)
    (blockRow : Nat) (g : Nat → Nat → Char) :
    ∀ (cols : List Nat) (acc : List Char),
      (∀ col ∈ cols, ∀ rib ∈ List.range rpb, blockRow + rib < rob) →
      (∀ col ∈ cols, ∀ rib ∈ List.range rpb,
        samplePixel img (col * bs) ((blockRow + rib) * bs) pad tol = Except.ok (g col rib)) →
      decodeCols img bs rob rpb pad tol blockRow cols acc =
        Except.ok (acc ++ cols.flatMap (fun col => (List.range rpb).map (g col))) := by
  intro cols
  induction cols with
  | nil =>
    intro acc h1 h2
    simp [decodeCols]
  | cons c cs ih =>
    intro acc h1 h2
    rw [decodeCols]
    rw [decodeRows_ok img bs rob pad tol blockRow c (g c) (List.range rpb) acc
      (h1 c (List.mem_cons_self ..)) (h2 c (List.mem_cons_self ..))]
    show decodeCols img bs rob rpb pad tol blockRow cs (acc ++ (List.range rpb).map (g c)) = _
    rw [ih _ (fun col hm => h1 col (List.mem_cons_of_mem _ hm))
      (fun col hm => h2 col (List.mem_cons_of_mem _ hm))]
    simp

theorem mul_lt_mul_of_lt_of_pos (a b c : Nat) (h : a < b) (hc : 0 < c) : a * c < b * c := by
  have h1 : (a + 1) * c ≤ b * c := mul_le_mul_right' (by omega) c
  have h2 : (a + 1) * c = a * c + c := Nat.succ_mul ..
  omega

/-- The outer block-row loop, stepping `rpb` at a time over `nb` block
groups, with enough fuel, produces the concatenation of the per-group
outputs. -/
theorem decodeOuter_ok (img : Image) (bs bpr rob rpb : Nat) (pad : Char) (tol : Nat)
    (hrpb : 0 < rpb) (nb : Nat) (hrob : rob = nb * rpb) (g : Nat → Nat → Nat → Char)
    (hsample : ∀ b, b < nb → ∀ col ∈ List.range bpr, ∀ rib ∈ List.range rpb,
      samplePixel img (col * bs) ((b * rpb + rib) * bs) pad tol = Except.ok (g b col rib)) :
    ∀ (k b0 fuel : Nat) (acc : List Char), b0 + k = nb → k + 1 ≤ fuel →
      decodeOuter img bs bpr rob rpb pad tol fuel (b0 * rpb) acc =
        some (Except.ok (acc ++ (List.range' b0 k).flatMap (fun b =>
          (List.range bpr).flatMap (fun col => (List.range rpb).map (g b col))))) := by
  intro k
  induction k with
  | zero =>
    intro b0 fuel acc hb hf
    obtain ⟨f, rfl⟩ : ∃ f, fuel = f + 1 := ⟨fuel - 1, by omega⟩
    have hbe : b0 = nb := by omega
    subst hbe
    rw [decodeOuter, if_neg (by rw [hrob]; omega)]
    simp [List.range']
  | succ k ih =>
    intro b0 fuel acc hb hf
    obtain ⟨f, rfl⟩ : ∃ f, fuel = f + 1 := ⟨fuel - 1, by omega⟩
    have hb0 : b0 < nb := by omega
    have hlt : b0 * rpb < rob := by
      rw [hrob]
      exact mul_lt_mul_of_lt_of_pos b0 nb rpb hb0 hrpb
    have hbreak : ∀ col ∈ List.range bpr, ∀ rib ∈ List.range rpb, b0 * rpb + rib < rob := by
      intro col hcol rib hrib
      rw [List.mem_range] at hrib
      have h1 : (b0 + 1) * rpb ≤ nb * rpb := mul_le_mul_right' (by omega) rpb
      have h2 : (b0 + 1) * rpb = b0 * rpb + rpb := Nat.succ_mul ..
      omega
    rw [decodeOuter, if_pos hlt]
    rw [decodeCols_ok img bs rob rpb pad tol (b0 * rpb) (g b0) (List.range bpr) acc hbreak
      (fun col hcol rib hrib => hsample b0 hb0 col hcol rib hrib)]
    show decodeOuter img bs bpr rob rpb pad tol f (b0 * rpb + rpb) _ = _
    rw [show b0 * rpb + rpb = (b0 + 1) * rpb from (Nat.succ_mul ..).symm]
    rw [ih (b0 + 1) f _ (by omega) (by omega)]
    rw [show List.range' b0 (k + 1) = b0 :: List.range' (b0 + 1) k from List.range'_succ ..]
    simp

/-- The decoder's output on an image that encoded `seq`: one symbol per
block position, visited in `(group, col, rowInBlock)` order, while the
encoder laid positions out in `(group, rowInBlock, col)` order — so the
sequence position read at `(b, col, rib)` is `b·bpb + rib·bpr + col`. -/
def decodedList (seq : List Char) (bpr rpb nb : Nat) (pad : Char) : List Char :=
  (List.range nb).flatMap (fun b =>
    (List.range bpr).flatMap (fun col =>
      (List.range rpb).map (fun rib =>
        if b * (bpr * rpb) + rib * bpr + col < seq.length
        then seq.getD (b * (bpr * rpb) + rib * bpr + col) 'A'
        else pad)))

/-- Encode-then-decode on any valid configuration and any sequence over the
four data symbols: decode succeeds and returns `decodedList`. -/
theorem roundTrip_spec (seq : List Char) (cfg : Config)
    (h1 : 0 < cfg.blockSize) (h2 : 0 < cfg.blocksPerRow) (h3 : 0 < cfg.rowsPerBlock)
    (hvalid : ∀ c ∈ seq, c ∈ dataSymbols) :
    roundTrip seq cfg = Except.ok (some (Except.ok (decodedList seq
      cfg.blocksPerRow.toNat cfg.rowsPerBlock.toNat
      ((seq.length + cfg.blocksPerRow.toNat * cfg.rowsPerBlock.toNat - 1) /
        (cfg.blocksPerRow.toNat * cfg.rowsPerBlock.toNat)) cfg.paddingChar))) := by
  have hbs : 0 < cfg.blockSize.toNat := by omega
  have hbpr : 0 < cfg.blocksPerRow.toNat := by omega
  have hrpb : 0 < cfg.rowsPerBlock.toNat := by omega
  obtain ⟨img, henc, hw, hh, hpix⟩ := dnaToPNGGrayscale_spec seq cfg h1 h2 h3
  set bs := cfg.blockSize.toNat with hbsdef
  set bpr := cfg.blocksPerRow.toNat with hbprdef
  set rpb := cfg.rowsPerBlock.toNat with hrpbdef
  set nb := (seq.length + bpr * rpb - 1) / (bpr * rpb) with hnbdef
  rw [roundTrip, henc]
  show Except.ok (pngToDNAGrayscale img cfg) = _
  unfold pngToDNAGrayscale
  rw [if_neg (by omega)]
  have hwmod : img.width % bs = 0 := by
    rw [hw]
    simp [Nat.mul_mod_left]
  have hhmod : img.height % bs = 0 := by
    rw [hh]
    simp [Nat.mul_mod_left]
  rw [if_neg (by simp [hwmod, hhmod])]
  have hbpr2 : img.width / bs = bpr := by
    rw [hw]
    exact (div_window hbs).mpr ⟨le_refl _, by omega⟩
  have hrob2 : img.height / bs = nb * rpb := by
    rw [hh]
    exact (div_window hbs).mpr ⟨le_refl _, by omega⟩
  rw [hbpr2, hrob2]
  have hsample : ∀ b, b < nb → ∀ col ∈ List.range bpr, ∀ rib ∈ List.range rpb,
      samplePixel img (col * bs) ((b * rpb + rib) * bs) cfg.paddingChar 20 =
        Except.ok ((fun b col rib =>
          if b * (bpr * rpb) + rib * bpr + col < seq.length
          then seq.getD (b * (bpr * rpb) + rib * bpr + col) 'A'
          else cfg.paddingChar) b col rib) := by
    intro b hb col hcol rib hrib
    rw [List.mem_range] at hcol hrib
    have hpxw : col * bs < img.width := by
      rw [hw]
      have ha : (col + 1) * bs ≤ bpr * bs := mul_le_mul_right' (by omega) bs
      have hb2 : (col + 1) * bs = col * bs + bs := Nat.succ_mul ..
      omega
    have hrowlt : b * rpb + rib < nb * rpb := by
      have ha : (b + 1) * rpb ≤ nb * rpb := mul_le_mul_right' (by omega) rpb
      have hb2 : (b + 1) * rpb = b * rpb + rpb := Nat.succ_mul ..
      omega
    have hpyh : (b * rpb + rib) * bs < img.height := by
      rw [hh]
      exact mul_lt_mul_of_lt_of_pos _ _ _ hrowlt hbs
    have hdx : col * bs / bs = col := (div_window hbs).mpr ⟨le_refl _, by omega⟩
    have hdy : (b * rpb + rib) * bs / bs = b * rpb + rib :=
      (div_window hbs).mpr ⟨le_refl _, by omega⟩
    have hgi : globalIdx bs bpr rpb (col * bs) ((b * rpb + rib) * bs) =
        b * (bpr * rpb) + rib * bpr + col := by
      unfold globalIdx localIdx
      rw [hdx, hdy]
      rw [show b * rpb + rib = rib + b * rpb from by omega]
      rw [Nat.add_mul_div_right rib b hrpb, Nat.add_mul_mod_self_right]
      rw [Nat.div_eq_of_lt hrib, Nat.mod_eq_of_lt hrib, Nat.zero_add]
      omega
    by_cases hJ : b * (bpr * rpb) + rib * bpr + col < seq.length
    · simp only [if_pos hJ]
      apply samplePixel_opaque img _ _ _ _ ?_ hpxw hpyh ?_
      · rw [List.getD_eq_getElem _ _ hJ]
        exact hvalid _ (List.getElem_mem ..)
      · rw [hpix _ _ hpxw hpyh, hgi, if_pos hJ]
    · simp only [if_neg hJ]
      apply samplePixel_transparent
      have hgp : img.getPixel (col * bs) ((b * rpb + rib) * bs) = RGBA.mk 0 0 0 0 := by
        unfold Image.getPixel
        rw [if_pos ⟨hpxw, hpyh⟩, hpix _ _ hpxw hpyh, hgi, if_neg hJ]
      rw [hgp]
      decide
  have hfuel : nb + 1 ≤ nb * rpb + 1 := by
    have := mul_le_mul_left' hrpb nb
    omega
  have hdec := decodeOuter_ok img bs bpr (nb * rpb) rpb cfg.paddingChar 20 hrpb nb rfl
    _ hsample nb 0 (nb * rpb + 1) [] (by omega) hfuel
  rw [Nat.zero_mul] at hdec
  rw [hdec]
  rw [show List.range' 0 nb = List.range nb from (List.range_eq_range' nb).symm]
  rw [decodedList]
  simp

/-! ### Reindexing the decoder's output -/

theorem listFlatMapCongr {α β : Type} (l : List α) (f g : α → List β)
    (h : ∀ x ∈ l, f x = g x) : l.flatMap f = l.flatMap g := by
  induction l with
  | nil => rfl
  | cons a as ih =>
    rw [List.flatMap_cons, List.flatMap_cons, h a (List.mem_cons_self ..),
      ih (fun x hx => h x (List.mem_cons_of_mem _ hx))]

theorem range_flatMap_map {α : Type} (n m : Nat) (f : Nat → α) :
    (List.range n).flatMap (fun b => (List.range m).map (fun c => f (b * m + c))) =
      (List.range (n * m)).map f := by
  induction n with
  | zero => simp
  | succ n ih =>
    rw [List.range_succ, List.flatMap_append, ih]
    rw [show (n + 1) * m = n * m + m from Nat.succ_mul ..]
    rw [List.range_add, List.map_append, List.map_map]
    simp [Function.comp_def]

theorem rangeMap_pad (l : List Char) (n : Nat) (pad : Char) (h : l.length ≤ n) :
    (List.range n).map (fun k => if k < l.length then l.getD k 'A' else pad) =
      l ++ List.replicate (n - l.length) pad := by
  apply List.ext_getElem
  · simp only [List.length_map, List.length_range, List.length_append, List.length_replicate]
    omega
  · intro i h1 h2
    simp only [List.length_map, List.length_range] at h1
    simp only [List.getElem_map, List.getElem_range]
    by_cases hi : i < l.length
    · rw [if_pos hi, List.getD_eq_getElem _ _ hi, List.getElem_append_left hi]
    · rw [if_neg hi, List.getElem_append_right (by omega)]
      simp

/-- The decoder's output list rewritten as a single map over output
positions `t`: position `t` shows the symbol at sequence position
`(t div bpb)·bpb + (t mod bpb mod rpb)·bpr + (t mod bpb div rpb)`. -/
theorem decodedList_eq_rangeMap (seq : List Char) (bpr rpb nb : Nat) (pad : Char)
    (hbpr : 0 < bpr) (hrpb : 0 < rpb) :
    decodedList seq bpr rpb nb pad =
      (List.range (nb * (bpr * rpb))).map (fun t =>
        if t / (bpr * rpb) * (bpr * rpb) + t % (bpr * rpb) % rpb * bpr +
            t % (bpr * rpb) / rpb < seq.length
        then seq.getD (t / (bpr * rpb) * (bpr * rpb) + t % (bpr * rpb) % rpb * bpr +
          t % (bpr * rpb) / rpb) 'A'
        else pad) := by
  unfold decodedList
  have hstep1 : ∀ b : Nat, (List.range bpr).flatMap (fun col => (List.range rpb).map (fun rib =>
      if b * (bpr * rpb) + rib * bpr + col < seq.length
      then seq.getD (b * (bpr * rpb) + rib * bpr + col) 'A' else pad)) =
      (List.range (bpr * rpb)).map (fun u =>
        if b * (bpr * rpb) + u % rpb * bpr + u / rpb < seq.length
        then seq.getD (b * (bpr * rpb) + u % rpb * bpr + u / rpb) 'A' else pad) := by
    intro b
    rw [← range_flatMap_map bpr rpb (fun u =>
      if b * (bpr * rpb) + u % rpb * bpr + u / rpb < seq.length
      then seq.getD (b * (bpr * rpb) + u % rpb * bpr + u / rpb) 'A' else pad)]
    apply listFlatMapCongr
    intro col hcol
    apply List.map_congr_left
    intro rib hrib
    rw [List.mem_range] at hrib
    have hu1 : (col * rpb + rib) / rpb = col := by
      rw [show col * rpb + rib = rib + col * rpb from by omega]
      rw [Nat.add_mul_div_right rib col hrpb, Nat.div_eq_of_lt hrib, Nat.zero_add]
    have hu2 : (col * rpb + rib) % rpb = rib := by
      rw [show col * rpb + rib = rib + col * rpb from by omega]
      rw [Nat.add_mul_mod_self_right, Nat.mod_eq_of_lt hrib]
    simp only [hu1, hu2]
  rw [listFlatMapCongr _ _ _ (fun b _ => hstep1 b)]
  rw [← range_flatMap_map nb (bpr * rpb) (fun t =>
    if t / (bpr * rpb) * (bpr * rpb) + t % (bpr * rpb) % rpb * bpr +
        t % (bpr * rpb) / rpb < seq.length
    then seq.getD (t / (bpr * rpb) * (bpr * rpb) + t % (bpr * rpb) % rpb * bpr +
      t % (bpr * rpb) / rpb) 'A'
    else pad)]
  apply listFlatMapCongr
  intro b hb
  apply List.map_congr_left
  intro u hu
  rw [List.mem_range] at hu
  have hbpb : 0 < bpr * rpb := Nat.mul_pos hbpr hrpb
  have hv1 : (b * (bpr * rpb) + u) / (bpr * rpb) = b := by
    rw [show b * (bpr * rpb) + u = u + b * (bpr * rpb) from by omega]
    rw [Nat.add_mul_div_right u b hbpb, Nat.div_eq_of_lt hu, Nat.zero_add]
  have hv2 : (b * (bpr * rpb) + u) % (bpr * rpb) = u := by
    rw [show b * (bpr * rpb) + u = u + b * (bpr * rpb) from by omega]
    rw [Nat.add_mul_mod_self_right, Nat.mod_eq_of_lt hu]
  simp only [hv1, hv2]

theorem ceil_le (len bpb : Nat) (hbpb : 0 < bpb) :
    len ≤ (len + bpb - 1) / bpb * bpb := by
  have hd := Nat.div_add_mod (len + bpb - 1) bpb
  have hm := Nat.mod_lt (len + bpb - 1) hbpb
  have hc : bpb * ((len + bpb - 1) / bpb) = (len + bpb - 1) / bpb * bpb := Nat.mul_comm ..
  omega

theorem ceil_exact (len bpb : Nat) (hbpb : 0 < bpb) (h : len % bpb = 0) :
    (len + bpb - 1) / bpb * bpb = len := by
  have hd := Nat.div_add_mod len bpb
  have hq : (len + bpb - 1) / bpb = len / bpb := by
    have h1 : len + bpb - 1 = bpb * (len / bpb) + (bpb - 1) := by omega
    rw [h1, Nat.mul_add_div hbpb,
      show (bpb - 1) / bpb = 0 from Nat.div_eq_of_lt (by omega)]
    omega
  have hc : len / bpb * bpb = bpb * (len / bpb) := Nat.mul_comm ..
  rw [hq]
  omega

theorem ceil_pad (len bpb : Nat) (hbpb : 0 < bpb) (h : len % bpb ≠ 0) :
    (len + bpb - 1) / bpb * bpb = len + (bpb - len % bpb) := by
  have hd := Nat.div_add_mod len bpb
  have hm := Nat.mod_lt len hbpb
  have he : bpb * (len / bpb + 1) = bpb * (len / bpb) + bpb := by
    rw [Nat.mul_add, Nat.mul_one]
  have hq : (len + bpb - 1) / bpb = len / bpb + 1 := by
    have h1 : len + bpb - 1 = bpb * (len / bpb + 1) + (len % bpb - 1) := by omega
    rw [h1, Nat.mul_add_div hbpb,
      show (len % bpb - 1) / bpb = 0 from Nat.div_eq_of_lt (by omega)]
  have hc : (len / bpb + 1) * bpb = bpb * (len / bpb + 1) := Nat.mul_comm ..
  rw [hq]
  omega

/-- With one row per block group, decode restores the sequence followed by
padding for the absent trailing positions. -/
theorem decodedList_one (seq : List Char) (bpr nb : Nat) (pad : Char) (hbpr : 0 < bpr)
    (hlen : seq.length ≤ nb * (bpr * 1)) :
    decodedList seq bpr 1 nb pad = seq ++ List.replicate (nb * (bpr * 1) - seq.length) pad := by
  rw [decodedList_eq_rangeMap seq bpr 1 nb pad hbpr (by omega)]
  have hpt : ∀ t ∈ List.range (nb * (bpr * 1)),
      (if t / (bpr * 1) * (bpr * 1) + t % (bpr * 1) % 1 * bpr + t % (bpr * 1) / 1 < seq.length
       then seq.getD (t / (bpr * 1) * (bpr * 1) + t % (bpr * 1) % 1 * bpr +
         t % (bpr * 1) / 1) 'A'
       else pad) = (if t < seq.length then seq.getD t 'A' else pad) := by
    intro t ht
    have e1 : t % (bpr * 1) % 1 = 0 := Nat.mod_one ..
    have e3 : t / (bpr * 1) * (bpr * 1) + t % (bpr * 1) = t := Nat.div_add_mod' ..
    simp only [e1, Nat.zero_mul, Nat.add_zero, Nat.div_one, e3]
  rw [List.map_congr_left hpt]
  exact rangeMap_pad seq (nb * (bpr * 1)) pad hlen

/-- Indexed access into the decoder's output: output position
`b·bpb + col·rpb + rib` holds the symbol of sequence position
`b·bpb + rib·bpr + col`. -/
theorem decodedList_getElem (seq : List Char) (bpr rpb nb : Nat) (pad : Char)
    (hbpr : 0 < bpr) (hrpb : 0 < rpb) (b col rib : Nat)
    (hb : b < nb) (hcol : col < bpr) (hrib : rib < rpb) :
    (decodedList seq bpr rpb nb pad)[b * (bpr * rpb) + col * rpb + rib]? =
      some (if b * (bpr * rpb) + rib * bpr + col < seq.length
        then seq.getD (b * (bpr * rpb) + rib * bpr + col) 'A' else pad) := by
  rw [decodedList_eq_rangeMap seq bpr rpb nb pad hbpr hrpb]
  have hu : col * rpb + rib < bpr * rpb := by
    have ha : (col + 1) * rpb ≤ bpr * rpb := mul_le_mul_right' (by omega) rpb
    have hb2 : (col + 1) * rpb = col * rpb + rpb := Nat.succ_mul ..
    omega
  have hidx : b * (bpr * rpb) + col * rpb + rib < nb * (bpr * rpb) := by
    have ha : (b + 1) * (bpr * rpb) ≤ nb * (bpr * rpb) := mul_le_mul_right' (by omega) _
    have hb2 : (b + 1) * (bpr * rpb) = b * (bpr * rpb) + bpr * rpb := Nat.succ_mul ..
    omega
  rw [List.getElem?_map, List.getElem?_range hidx]
  have hbpb : 0 < bpr * rpb := Nat.mul_pos hbpr hrpb
  have e0 : b * (bpr * rpb) + col * rpb + rib = (col * rpb + rib) + b * (bpr * rpb) := by
    omega
  have e1 : (b * (bpr * rpb) + col * rpb + rib) / (bpr * rpb) = b := by
    rw [e0, Nat.add_mul_div_right _ _ hbpb, Nat.div_eq_of_lt hu, Nat.zero_add]
  have e2 : (b * (bpr * rpb) + col * rpb + rib) % (bpr * rpb) = col * rpb + rib := by
    rw [e0, Nat.add_mul_mod_self_right, Nat.mod_eq_of_lt hu]
  have e3 : (col * rpb + rib) / rpb = col := by
    rw [show col * rpb + rib = rib + col * rpb from by omega]
    rw [Nat.add_mul_div_right rib col hrpb, Nat.div_eq_of_lt hrib, Nat.zero_add]
  have e4 : (col * rpb + rib) % rpb = rib := by
    rw [show col * rpb + rib = rib + col * rpb from by omega]
    rw [Nat.add_mul_mod_self_right, Nat.mod_eq_of_lt hrib]
  simp only [Option.map_some', e1, e2, e3, e4]

/-! ### dnacrypt.go: byte/DNA conversion and the XOR one-time pad

The Go helpers return `error` values; constructors below stand for the
distinct `fmt.Errorf` sites (the wrapped position payloads that only feed
message text are dropped). -/

inductive CryptError where
  | segmentLength (n : Nat)
  | invalidBase (c : Char)
  | lengthMismatch
  | notMultipleOf4
  | invalidBinary (v : Nat)
  | inString1 (e : CryptError)
  | inString2 (e : CryptError)
  | xorConvert (e : CryptError)
deriving DecidableEq, Repr

/-- The `switch twoBits` of `byteToDNA`; the scrutinee is masked with
`& 0x03` (here `% 4`), so the `_` arm is the `case 3` arm. -/
def twoBitsBase (twoBits : Nat) : Char :=
  match twoBits with
  | 0 => 'A'
  | 1 => 'T'
  | 2 => 'C'
  | _ => 'G'

/-- `byteToDNA`: the four two-bit groups of a byte, most significant first
(`for i := 3; i >= 0; i--`). -/
def byteToDNA (b : Nat) : List Char :=
  [3, 2, 1, 0].map (fun i => twoBitsBase ((b >>> (i * 2)) % 4))

/-- The per-rune `switch` inside `dnaToByte`. -/
def dnaRuneVal (r : Char) : Except CryptError Nat :=
  if r = 'A' ∨ r = 'a' then Except.ok 0
  else if r = 'T' ∨ r = 't' then Except.ok 1
  else if r = 'C' ∨ r = 'c' then Except.ok 2
  else if r = 'G' ∨ r = 'g' then Except.ok 3
  else Except.error (CryptError.invalidBase r)

/-- The accumulator loop of `dnaToByte`: `b = (b << 2) | val`. -/
def dnaToByteAux : List Char → Nat → Except CryptError Nat
  | [], b => Except.ok b
  | r :: rest, b =>
    match dnaRuneVal r with
    | Except.error e => Except.error e
    | Except.ok val => dnaToByteAux rest ((b <<< 2) ||| val)

/-- `dnaToByte` from `dnacrypt.go`. -/
def dnaToByte (dna : List Char) : Except CryptError Nat :=
  if dna.length ≠ 4 then Except.error (CryptError.segmentLength dna.length)
  else dnaToByteAux dna 0

/-- `textToDNA`: every input byte becomes four bases. -/
def textToDNA (text : List Nat) : List Char :=
  text.flatMap byteToDNA

/-- The 4-base-segment loop of `dnaToText`.  The catch-all arm is
unreachable from `dnaToText` thanks to its length guard. -/
def dnaToTextAux : List Char → Except CryptError (List Nat)
  | [] => Except.ok []
  | c0 :: c1 :: c2 :: c3 :: rest =>
    match dnaToByte [c0, c1, c2, c3] with
    | Except.error e => Except.error e
    | Except.ok b =>
      match dnaToTextAux rest with
      | Except.error e => Except.error e
      | Except.ok bs => Except.ok (b :: bs)
  | dna => Except.error (CryptError.segmentLength dna.length)

/-- `dnaToText` from `dnacrypt.go`. -/
def dnaToText (dna : List Char) : Except CryptError (List Nat) :=
  if dna.length % 4 ≠ 0 then Except.error CryptError.notMultipleOf4
  else dnaToTextAux dna

/-- `dnaBaseToBinary` from `dnacrypt.go`. -/
def dnaBaseToBinary (base : Char) : Except CryptError Nat :=
  if base = 'A' ∨ base = 'a' then Except.ok 0
  else if base = 'T' ∨ base = 't' then Except.ok 1
  else if base = 'C' ∨ base = 'c' then Except.ok 2
  else if base = 'G' ∨ base = 'g' then Except.ok 3
  else Except.error (CryptError.invalidBase base)

/-- `binaryToDNABase` from `dnacrypt.go`; the scrutinee is masked with
`& 0x03` (here `% 4`), making the error arm unreachable. -/
def binaryToDNABase (val : Nat) : Except CryptError Char :=
  if val % 4 = 0 then Except.ok 'A'
  else if val % 4 = 1 then Except.ok 'T'
  else if val % 4 = 2 then Except.ok 'C'
  else if val % 4 = 3 then Except.ok 'G'
  else Except.error (CryptError.invalidBinary val)

/-- The index loop of `xorDNAStrings`, over the zipped equal-length
strings (the guard in `xorDNAStrings` makes the zip lossless). -/
def xorDNAAux : List (Char × Char) → Except CryptError (List Char)
  | [] => Except.ok []
  | (c1, c2) :: rest =>
    match dnaBaseToBinary c1 with
    | Except.error e => Except.error (CryptError.inString1 e)
    | Except.ok b1 =>
      match dnaBaseToBinary c2 with
      | Except.error e => Except.error (CryptError.inString2 e)
      | Except.ok b2 =>
        match binaryToDNABase (b1 ^^^ b2) with
        | Except.error e => Except.error (CryptError.xorConvert e)
        | Except.ok resBase =>
          match xorDNAAux rest with
          | Except.error e => Except.error e
          | Except.ok restBases => Except.ok (resBase :: restBases)

/-- `xorDNAStrings` from `dnacrypt.go`. -/
def xorDNAStrings (dna1 dna2 : List Char) : Except CryptError (List Char) :=
  if dna1.length ≠ dna2.length then Except.error CryptError.lengthMismatch
  else xorDNAAux (dna1.zip dna2)

/-! ### One-time-pad lemmas -/

/-- One XOR step and its inverse on a pair of data symbols. -/
theorem xor_head (c k : Char) (hc : c ∈ dataSymbols) (hk : k ∈ dataSymbols) :
    ∃ b1 b2 r, dnaBaseToBinary c = Except.ok b1 ∧ dnaBaseToBinary k = Except.ok b2 ∧
      binaryToDNABase (b1 ^^^ b2) = Except.ok r ∧ r ∈ dataSymbols ∧
      ∃ br, dnaBaseToBinary r = Except.ok br ∧ binaryToDNABase (br ^^^ b2) = Except.ok c := by
  fin_cases hc <;> fin_cases hk <;>
    exact ⟨_, _, _, rfl, rfl, rfl, by decide, _, rfl, rfl⟩

/-- Applying the XOR loop twice with the same key restores the input. -/
theorem xorDNAAux_double : ∀ (d k : List Char), d.length = k.length →
    (∀ c ∈ d, c ∈ dataSymbols) → (∀ c ∈ k, c ∈ dataSymbols) →
    ∃ ct, xorDNAAux (d.zip k) = Except.ok ct ∧ ct.length = d.length ∧
      xorDNAAux (ct.zip k) = Except.ok d := by
  intro d
  induction d with
  | nil =>
    intro k hlen h1 h2
    exact ⟨[], rfl, rfl, rfl⟩
  | cons c d2 ih =>
    intro k hlen h1 h2
    cases k with
    | nil => simp at hlen
    | cons kc k2 =>
      obtain ⟨ct2, hct2, hlen2, hback⟩ := ih k2 (by simpa using hlen)
        (fun x hx => h1 x (List.mem_cons_of_mem _ hx))
        (fun x hx => h2 x (List.mem_cons_of_mem _ hx))
      obtain ⟨b1, b2, r, hb1, hb2, hr, hrmem, br, hbr, hback2⟩ :=
        xor_head c kc (h1 c (List.mem_cons_self ..)) (h2 kc (List.mem_cons_self ..))
      refine ⟨r :: ct2, ?_, by simp [hlen2], ?_⟩
      · rw [List.zip_cons_cons]
        simp only [xorDNAAux, hb1, hb2, hr, hct2]
      · rw [List.zip_cons_cons]
        simp only [xorDNAAux, hbr, hb2, hback2, hback]

set_option maxRecDepth 4096 in
/-- Byte-level inverse: decoding the four bases of a byte restores it. -/
theorem dnaToByte_byteToDNA : ∀ b < 256, dnaToByte (byteToDNA b) = Except.ok b := by
  decide

theorem twoBitsBase_mem (v : Nat) : twoBitsBase v ∈ dataSymbols := by
  match v with
  | 0 => decide
  | 1 => decide
  | 2 => decide
  | n + 3 => exact (show ('G' : Char) ∈ dataSymbols from by decide)

theorem byteToDNA_length (b : Nat) : (byteToDNA b).length = 4 := rfl

theorem byteToDNA_valid (b : Nat) : ∀ c ∈ byteToDNA b, c ∈ dataSymbols := by
  intro c hc
  unfold byteToDNA at hc
  rw [List.mem_map] at hc
  obtain ⟨i, -, rfl⟩ := hc
  exact twoBitsBase_mem _

theorem textToDNA_length (p : List Nat) : (textToDNA p).length = 4 * p.length := by
  induction p with
  | nil => rfl
  | cons b p2 ih =>
    unfold textToDNA at *
    rw [List.flatMap_cons, List.length_append, ih, byteToDNA_length, List.length_cons]
    omega

theorem textToDNA_valid (p : List Nat) : ∀ c ∈ textToDNA p, c ∈ dataSymbols := by
  intro c hc
  unfold textToDNA at hc
  rw [List.mem_flatMap] at hc
  obtain ⟨b, -, hmem⟩ := hc
  exact byteToDNA_valid b c hmem

/-- Text-level inverse: `dnaToText` undoes `textToDNA` on byte lists. -/
theorem dnaToText_textToDNA (p : List Nat) (hp : ∀ b ∈ p, b < 256) :
    dnaToText (textToDNA p) = Except.ok p := by
  have haux : ∀ (q : List Nat), (∀ b ∈ q, b < 256) →
      dnaToTextAux (textToDNA q) = Except.ok q := by
    intro q
    induction q with
    | nil => intro hq; rfl
    | cons b q2 ih =>
      intro hq
      obtain ⟨c0, c1, c2, c3, hsplit⟩ :
          ∃ c0 c1 c2 c3, byteToDNA b = [c0, c1, c2, c3] := ⟨_, _, _, _, rfl⟩
      have hstep : textToDNA (b :: q2) = c0 :: c1 :: c2 :: c3 :: textToDNA q2 := by
        unfold textToDNA
        rw [List.flatMap_cons, hsplit]
        rfl
      rw [hstep]
      have hbyte : dnaToByte [c0, c1, c2, c3] = Except.ok b := by
        rw [← hsplit]
        exact dnaToByte_byteToDNA b (hq b (List.mem_cons_self ..))
      simp only [dnaToTextAux, hbyte, ih (fun x hx => hq x (List.mem_cons_of_mem _ hx))]
  unfold dnaToText
  rw [if_neg (by rw [textToDNA_length]; omega)]
  exact haux p hp

/-! ### Auxiliary facts for the claims -/

/-- The encoder's map lookup yields the zero value for any symbol outside
the four data symbols — in particular for an explicit padding symbol. -/
theorem grayValue_unmapped (c : Char) (hc : c ∉ dataSymbols) : grayValue c = 0 := by
  have h4 : c ≠ 'A' ∧ c ≠ 'T' ∧ c ≠ 'C' ∧ c ≠ 'G' := by
    refine ⟨?_, ?_, ?_, ?_⟩ <;> intro h <;> exact hc (by rw [h]; decide)
  unfold grayValue dnaGrayscaleMap
  simp [List.lookup, beq_eq_false_iff_ne.mpr h4.1, beq_eq_false_iff_ne.mpr h4.2.1,
    beq_eq_false_iff_ne.mpr h4.2.2.1, beq_eq_false_iff_ne.mpr h4.2.2.2]

/-! ### The claims -/

/-- A layout with two rows per block group and two blocks per row: the
configuration of the counterexample to claim C1. -/
def cfgC1 : Config :=
  { blockSize := 1, blocksPerRow := 2, rowsPerBlock := 2,
    paddingChar := 'N', transparentPad := true }

/-- Claim C1 (counterexample): with `blockSizePx = 1`, `blocksPerRow = 2`,
`rowsPerBlock = 2` — a layout the claim quantifies over — encoding the
four-symbol sequence ATCG (length 4 = 2×2, an exact multiple) and decoding
the image yields ACTG, not ATCG: the decoder iterates `col` outside
`rowInBlock` while the encoder lays positions out row-major, so the claim
as stated is false. -/
theorem claim_C1_counterexample :
    roundTrip ['A', 'T', 'C', 'G'] cfgC1 =
      Except.ok (some (Except.ok ['A', 'C', 'T', 'G'])) ∧
    (['A', 'C', 'T', 'G'] : List Char) ≠ ['A', 'T', 'C', 'G'] := by
  constructor
  · decide
  · decide

/-- Claim C1 (amended): for every layout with positive `blockSizePx` and
`blocksPerRow` and with `rowsPerBlock = 1` (the default), and every
sequence over the four data symbols whose length is an exact multiple of
`blocksPerRow × rowsPerBlock`, decoding the image produced by encoding the
sequence returns exactly the original sequence, with no padding symbols
introduced.  (For `rowsPerBlock > 1` the decoder visits the positions of
each block group in transposed order, so the round trip permutes them.) -/
theorem claim_C1_amended (cfg : Config) (seq : List Char)
    (h1 : 0 < cfg.blockSize) (h2 : 0 < cfg.blocksPerRow) (h3 : cfg.rowsPerBlock = 1)
    (hvalid : ∀ c ∈ seq, c ∈ dataSymbols)
    (hmul : seq.length % cfg.blocksPerRow.toNat = 0) :
    roundTrip seq cfg = Except.ok (some (Except.ok seq)) := by
  have h3i : (0 : Int) < cfg.rowsPerBlock := by omega
  have hbpr : 0 < cfg.blocksPerRow.toNat := by omega
  rw [roundTrip_spec seq cfg h1 h2 h3i hvalid]
  have hr1 : cfg.rowsPerBlock.toNat = 1 := by rw [h3]; rfl
  rw [hr1]
  have hb1 : seq.length % (cfg.blocksPerRow.toNat * 1) = 0 := by
    rw [Nat.mul_one]
    exact hmul
  rw [decodedList_one seq cfg.blocksPerRow.toNat _ cfg.paddingChar hbpr
    (ceil_le seq.length (cfg.blocksPerRow.toNat * 1) (by omega))]
  have hex := ceil_exact seq.length (cfg.blocksPerRow.toNat * 1) (by omega) hb1
  rw [show (seq.length + cfg.blocksPerRow.toNat * 1 - 1) / (cfg.blocksPerRow.toNat * 1) *
      (cfg.blocksPerRow.toNat * 1) - seq.length = 0 from by omega]
  simp

/-- A single-row two-column layout used by witnesses. -/
def cfgRow2 : Config :=
  { blockSize := 1, blocksPerRow := 2, rowsPerBlock := 1,
    paddingChar := 'N', transparentPad := true }

/-- Claim C1 (amended, witness): the default-shaped layout at
`blocksPerRow = 2`, `rowsPerBlock = 1` round-trips the sequence AT. -/
theorem claim_C1_amended_witness :
    roundTrip ['A', 'T'] cfgRow2 = Except.ok (some (Except.ok ['A', 'T'])) :=
  claim_C1_amended _ _ (by decide) (by decide) (by decide) (by decide) (by decide)

/-- Claim C2: under the default configuration (`blockSizePx = 10`,
`blocksPerRow = 40`, `rowsPerBlock = 1`, padding `N`, `transparentPad`
enabled), for every sequence over the four data symbols whose length is
not a multiple of 40, decode∘encode returns the sequence followed by
padding symbols filling the remainder of the final block group. -/
theorem claim_C2 (seq : List Char) (hvalid : ∀ c ∈ seq, c ∈ dataSymbols)
    (hmod : seq.length % 40 ≠ 0) :
    roundTrip seq defaultConfig =
      Except.ok (some (Except.ok (seq ++ List.replicate (40 - seq.length % 40) 'N'))) := by
  rw [roundTrip_spec seq defaultConfig (by decide) (by decide) (by decide) hvalid]
  show Except.ok (some (Except.ok
    (decodedList seq 40 1 ((seq.length + 40 * 1 - 1) / (40 * 1)) 'N'))) = _
  rw [decodedList_one seq 40 _ 'N' (by omega)
    (ceil_le seq.length (40 * 1) (by omega))]
  have hp := ceil_pad seq.length (40 * 1) (by omega) (by rw [Nat.mul_one]; exact hmod)
  rw [show (seq.length + 40 * 1 - 1) / (40 * 1) * (40 * 1) - seq.length =
      40 - seq.length % 40 from by omega]

/-- Claim C2 (witness): a one-symbol sequence under the default
configuration decodes back to itself followed by 39 padding symbols. -/
theorem claim_C2_witness :
    roundTrip ['A'] defaultConfig =
      Except.ok (some (Except.ok (['A'] ++
        List.replicate (40 - (['A'] : List Char).length % 40) 'N'))) :=
  claim_C2 ['A'] (by decide) (by decide)

/-- A configuration with `blocksPerRow = 0`: decode ignores the field. -/
def cfgC3 : Config :=
  { blockSize := 1, blocksPerRow := 0, rowsPerBlock := 1,
    paddingChar := 'N', transparentPad := true }

/-- Claim C3 (counterexample): decoding with `blocksPerRow = 0 ≤ 0`
succeeds (the decoder never validates `blocksPerRow`, which it rederives
from the image width), instead of failing with an `InvalidConfiguration`
error as the claim requires of both directions. -/
theorem claim_C3_counterexample :
    cfgC3.blocksPerRow ≤ 0 ∧
    pngToDNAGrayscale (Image.new 1 1) cfgC3 = some (Except.ok ['N']) := by
  constructor
  · decide
  · decide

/-- Claim C3 (amended): the encoder validates all three geometry fields in
order, failing with the matching error; the decoder validates only
`blockSizePx` (before reading any pixel), and never checks `blocksPerRow`
or `rowsPerBlock`. -/
theorem claim_C3_amended (cfg : Config) (seq : List Char) (img : Image) :
    (cfg.blockSize ≤ 0 →
      dnaToPNGGrayscale seq cfg = Except.error CodecError.invalidBlockSize) ∧
    (0 < cfg.blockSize → cfg.blocksPerRow ≤ 0 →
      dnaToPNGGrayscale seq cfg = Except.error CodecError.invalidBlocksPerRow) ∧
    (0 < cfg.blockSize → 0 < cfg.blocksPerRow → cfg.rowsPerBlock ≤ 0 →
      dnaToPNGGrayscale seq cfg = Except.error CodecError.invalidRowsPerBlock) ∧
    (cfg.blockSize ≤ 0 →
      pngToDNAGrayscale img cfg = some (Except.error CodecError.invalidBlockSize)) := by
  refine ⟨?_, ?_, ?_, ?_⟩
  · intro h
    unfold dnaToPNGGrayscale
    rw [if_pos h]
  · intro h1 h2
    unfold dnaToPNGGrayscale
    rw [if_neg (by omega), if_pos h2]
  · intro h1 h2 h3
    unfold dnaToPNGGrayscale
    rw [if_neg (by omega), if_neg (by omega), if_pos h3]
  · intro h
    unfold pngToDNAGrayscale
    rw [if_pos h]

/-- A configuration with a non-positive block size. -/
def cfgBadBlockSize : Config :=
  { blockSize := 0, blocksPerRow := 40, rowsPerBlock := 1,
    paddingChar := 'N', transparentPad := true }

/-- A configuration with a non-positive rows-per-block. -/
def cfgBadRows : Config :=
  { blockSize := 1, blocksPerRow := 1, rowsPerBlock := 0,
    paddingChar := 'N', transparentPad := true }

/-- Claim C3 (amended, witness): each validation branch at a concrete
configuration. -/
theorem claim_C3_amended_witness :
    dnaToPNGGrayscale ['A'] cfgBadBlockSize = Except.error CodecError.invalidBlockSize ∧
    dnaToPNGGrayscale ['A'] cfgC3 = Except.error CodecError.invalidBlocksPerRow ∧
    dnaToPNGGrayscale ['A'] cfgBadRows = Except.error CodecError.invalidRowsPerBlock ∧
    pngToDNAGrayscale (Image.new 1 1) cfgBadBlockSize =
      some (Except.error CodecError.invalidBlockSize) :=
  ⟨(claim_C3_amended _ ['A'] (Image.new 1 1)).1 (by decide),
   (claim_C3_amended _ ['A'] (Image.new 1 1)).2.1 (by decide) (by decide),
   (claim_C3_amended _ ['A'] (Image.new 1 1)).2.2.1 (by decide) (by decide) (by decide),
   (claim_C3_amended _ ['A'] (Image.new 1 1)).2.2.2 (by decide)⟩

set_option maxRecDepth 4096 in
/-- Claim C4: with the hard-coded tolerance 20, every intensity that is
exactly 20 units from a symbol intensity (within 0–255) classifies
successfully, while every intensity exactly 21 units away fails with the
unclassifiable-pixel error (whose minimum difference is then 21). -/
theorem claim_C4 :
    ∀ v ∈ [0, 64, 128, 192], ∀ i : Nat, i ≤ 255 →
      (((i = v + 20 ∨ i + 20 = v) → (findClosestDNABaseGrayscale i 20).isOk = true) ∧
        ((i = v + 21 ∨ i + 21 = v) →
          findClosestDNABaseGrayscale i 20 =
            Except.error (CodecError.unclassifiable i 21))) := by
  decide

/-- Claim C4 (witness): 84 = 64 + 20 classifies; 85 = 64 + 21 fails. -/
theorem claim_C4_witness :
    (findClosestDNABaseGrayscale 84 20).isOk = true ∧
    findClosestDNABaseGrayscale 85 20 = Except.error (CodecError.unclassifiable 85 21) :=
  ⟨(claim_C4 64 (by decide) 84 (by decide)).1 (Or.inl rfl),
   (claim_C4 64 (by decide) 85 (by decide)).2 (Or.inl rfl)⟩

/-- Claim C5: a sampled pixel whose alpha is below half of full opacity
makes the decoder emit the configured padding symbol for that block —
whatever the RGB channels hold, with no classification performed — and
the row loop then simply continues with the padding symbol appended. -/
theorem claim_C5 :
    (∀ (img : Image) (x y : Nat) (pad : Char) (tol : Nat),
      (img.getPixel x y).a * 257 < 65535 / 2 →
      samplePixel img x y pad tol = Except.ok pad) ∧
    (∀ (img : Image) (bs rob : Nat) (pad : Char) (tol : Nat) (blockRow col rib : Nat)
        (ribs : List Nat) (acc : List Char),
      blockRow + rib < rob →
      (img.getPixel (col * bs) ((blockRow + rib) * bs)).a * 257 < 65535 / 2 →
      decodeRows img bs rob pad tol blockRow col (rib :: ribs) acc =
        decodeRows img bs rob pad tol blockRow col ribs (acc ++ [pad])) := by
  constructor
  · intro img x y pad tol h
    exact samplePixel_transparent img x y pad tol h
  · intro img bs rob pad tol blockRow col rib ribs acc hlt halpha
    rw [decodeRows, if_neg (by omega), samplePixel_transparent _ _ _ _ _ halpha]

/-- Claim C5 (witness): on the zero-alpha grid both parts apply. -/
theorem claim_C5_witness :
    samplePixel (Image.new 1 1) 0 0 'N' 20 = Except.ok 'N' ∧
    decodeRows (Image.new 1 1) 1 1 'N' 20 0 0 [0] [] =
      decodeRows (Image.new 1 1) 1 1 'N' 20 0 0 [] ([] ++ ['N']) :=
  ⟨claim_C5.1 (Image.new 1 1) 0 0 'N' 20 (by decide),
   claim_C5.2 (Image.new 1 1) 1 1 'N' 20 0 0 0 [] [] (by decide) (by decide)⟩

/-- Claim C6: for every image whose width or height is not an exact
multiple of the (positive) block size, decode fails with the
dimension-mismatch error — the error return carries no sequence. -/
theorem claim_C6 (img : Image) (cfg : Config) (h1 : 0 < cfg.blockSize)
    (h2 : img.width % cfg.blockSize.toNat ≠ 0 ∨ img.height % cfg.blockSize.toNat ≠ 0) :
    pngToDNAGrayscale img cfg =
      some (Except.error (CodecError.dimensionMismatch img.width img.height
        cfg.blockSize)) := by
  unfold pngToDNAGrayscale
  rw [if_neg (by omega), if_pos h2]

/-- Claim C6 (witness): a 95×100 image with the default block size 10. -/
theorem claim_C6_witness :
    pngToDNAGrayscale (Image.new 95 100) defaultConfig =
      some (Except.error (CodecError.dimensionMismatch 95 100 10)) :=
  claim_C6 (Image.new 95 100) defaultConfig (by decide) (by decide)

/-- Claim C7: a padding symbol (or any unmapped symbol) occurring
explicitly at position `k` of the input is quantized like any unmapped
symbol: its whole block is filled fully opaque (alpha 255) at the
unmapped intensity 0, not rendered transparent; only positions past the
end of the sequence stay at the transparent zero value. -/
theorem claim_C7 (cfg : Config) (seq : List Char) (k : Nat)
    (h1 : 0 < cfg.blockSize) (h2 : 0 < cfg.blocksPerRow) (h3 : 0 < cfg.rowsPerBlock)
    (hk : k < seq.length) (hpadk : seq.getD k 'A' = cfg.paddingChar)
    (hpad : cfg.paddingChar ∉ dataSymbols) :
    ∃ img, dnaToPNGGrayscale seq cfg = Except.ok img ∧
      (∀ dx dy, dx < cfg.blockSize.toNat → dy < cfg.blockSize.toNat →
        img.pix
          ((k % (cfg.blocksPerRow.toNat * cfg.rowsPerBlock.toNat) %
            cfg.blocksPerRow.toNat) * cfg.blockSize.toNat + dx)
          ((k % (cfg.blocksPerRow.toNat * cfg.rowsPerBlock.toNat) /
              cfg.blocksPerRow.toNat +
            k / (cfg.blocksPerRow.toNat * cfg.rowsPerBlock.toNat) *
              cfg.rowsPerBlock.toNat) * cfg.blockSize.toNat + dy) =
          RGBA.mk 0 0 0 255) ∧
      (∀ px py, px < img.width → py < img.height →
        seq.length ≤ globalIdx cfg.blockSize.toNat cfg.blocksPerRow.toNat
          cfg.rowsPerBlock.toNat px py →
        img.pix px py = RGBA.mk 0 0 0 0) := by
  obtain ⟨img, henc, hw2, hh2, hpix⟩ := dnaToPNGGrayscale_spec seq cfg h1 h2 h3
  have hbs : 0 < cfg.blockSize.toNat := by omega
  have hbpr : 0 < cfg.blocksPerRow.toNat := by omega
  have hrpb : 0 < cfg.rowsPerBlock.toNat := by omega
  set bs := cfg.blockSize.toNat with hbsdef
  set bpr := cfg.blocksPerRow.toNat with hbprdef
  set rpb := cfg.rowsPerBlock.toNat with hrpbdef
  have hbpb : 0 < bpr * rpb := Nat.mul_pos hbpr hrpb
  refine ⟨img, henc, ?_, ?_⟩
  · intro dx dy hdx hdy
    have hmlt : k % (bpr * rpb) < bpr * rpb := Nat.mod_lt _ hbpb
    have hcolk : k % (bpr * rpb) % bpr < bpr := Nat.mod_lt _ hbpr
    have hpx : (k % (bpr * rpb) % bpr) * bs + dx < img.width := by
      rw [hw2]
      have ha : (k % (bpr * rpb) % bpr + 1) * bs ≤ bpr * bs :=
        mul_le_mul_right' (by omega) bs
      have hb : (k % (bpr * rpb) % bpr + 1) * bs = (k % (bpr * rpb) % bpr) * bs + bs :=
        Nat.succ_mul ..
      omega
    have hrowq : k % (bpr * rpb) / bpr < rpb := by
      rw [Nat.div_lt_iff_lt_mul hbpr]
      have := Nat.mul_comm rpb bpr
      omega
    have hkd : k / (bpr * rpb) < (seq.length + bpr * rpb - 1) / (bpr * rpb) := by
      rw [Nat.div_lt_iff_lt_mul hbpb]
      have hle := ceil_le seq.length (bpr * rpb) hbpb
      omega
    have hrow : k % (bpr * rpb) / bpr + k / (bpr * rpb) * rpb <
        ((seq.length + bpr * rpb - 1) / (bpr * rpb)) * rpb := by
      have ha : (k / (bpr * rpb) + 1) * rpb ≤
          ((seq.length + bpr * rpb - 1) / (bpr * rpb)) * rpb :=
        mul_le_mul_right' (by omega) rpb
      have hb : (k / (bpr * rpb) + 1) * rpb = k / (bpr * rpb) * rpb + rpb :=
        Nat.succ_mul ..
      omega
    have hpy : (k % (bpr * rpb) / bpr + k / (bpr * rpb) * rpb) * bs + dy < img.height := by
      rw [hh2]
      have ha := mul_lt_mul_of_lt_of_pos _ _ _ hrow hbs
      have hb : (k % (bpr * rpb) / bpr + k / (bpr * rpb) * rpb + 1) * bs =
          (k % (bpr * rpb) / bpr + k / (bpr * rpb) * rpb) * bs + bs := Nat.succ_mul ..
      have hc : (k % (bpr * rpb) / bpr + k / (bpr * rpb) * rpb + 1) * bs ≤
          ((seq.length + bpr * rpb - 1) / (bpr * rpb)) * rpb * bs :=
        mul_le_mul_right' (by omega) bs
      omega
    have hdxq : ((k % (bpr * rpb) % bpr) * bs + dx) / bs = k % (bpr * rpb) % bpr :=
      (div_window hbs).mpr ⟨by omega, by omega⟩
    have hdyq : ((k % (bpr * rpb) / bpr + k / (bpr * rpb) * rpb) * bs + dy) / bs =
        k % (bpr * rpb) / bpr + k / (bpr * rpb) * rpb :=
      (div_window hbs).mpr ⟨by omega, by omega⟩
    have hcoord := (blockCoords_iff bs bpr rpb (k / (bpr * rpb)) (k % (bpr * rpb))
      ((k % (bpr * rpb) % bpr) * bs + dx)
      ((k % (bpr * rpb) / bpr + k / (bpr * rpb) * rpb) * bs + dy)
      hbpr hrpb hmlt (by rw [hdxq]; exact hcolk)).mp ⟨hdxq, hdyq⟩
    have hgik : globalIdx bs bpr rpb ((k % (bpr * rpb) % bpr) * bs + dx)
        ((k % (bpr * rpb) / bpr + k / (bpr * rpb) * rpb) * bs + dy) = k := by
      unfold globalIdx
      rw [hcoord.1, hcoord.2]
      have := Nat.div_add_mod' k (bpr * rpb)
      omega
    rw [hpix _ _ hpx hpy, hgik, if_pos hk, hpadk, grayValue_unmapped _ hpad]
  · intro px py hpx hpy hge
    rw [hpix px py hpx hpy, if_neg (by omega)]

/-- A one-block layout used by the C7 witness. -/
def cfgOne : Config :=
  { blockSize := 1, blocksPerRow := 1, rowsPerBlock := 1,
    paddingChar := 'N', transparentPad := true }

/-- Claim C7 (witness): encoding the explicit padding symbol N. -/
theorem claim_C7_witness :
    ∃ img, dnaToPNGGrayscale ['N'] cfgOne = Except.ok img ∧
      (∀ dx dy, dx < cfgOne.blockSize.toNat → dy < cfgOne.blockSize.toNat →
        img.pix
          ((0 % (cfgOne.blocksPerRow.toNat * cfgOne.rowsPerBlock.toNat) %
            cfgOne.blocksPerRow.toNat) * cfgOne.blockSize.toNat + dx)
          ((0 % (cfgOne.blocksPerRow.toNat * cfgOne.rowsPerBlock.toNat) /
              cfgOne.blocksPerRow.toNat +
            0 / (cfgOne.blocksPerRow.toNat * cfgOne.rowsPerBlock.toNat) *
              cfgOne.rowsPerBlock.toNat) * cfgOne.blockSize.toNat + dy) =
          RGBA.mk 0 0 0 255) ∧
      (∀ px py, px < img.width → py < img.height →
        (['N'] : List Char).length ≤ globalIdx cfgOne.blockSize.toNat
          cfgOne.blocksPerRow.toNat cfgOne.rowsPerBlock.toNat px py →
        img.pix px py = RGBA.mk 0 0 0 0) :=
  claim_C7 cfgOne ['N'] 0 (by decide) (by decide) (by decide) (by decide) (by decide)
    (by decide)

/-- Claim C8: on validation failure the encoder produces no image, and a
sampling error aborts the decoder at once — the first error is returned
unchanged through the row, column and block-row loops, and every error
return discards the accumulated output, so no partial sequence ever
reaches the caller. -/
theorem claim_C8 :
    (∀ (seq : List Char) (cfg : Config),
      (cfg.blockSize ≤ 0 ∨ cfg.blocksPerRow ≤ 0 ∨ cfg.rowsPerBlock ≤ 0) →
      (dnaToPNGGrayscale seq cfg).isOk = false) ∧
    (∀ (img : Image) (bs rob : Nat) (pad : Char) (tol : Nat) (blockRow col rib : Nat)
        (ribs : List Nat) (acc : List Char) (e : CodecError),
      blockRow + rib < rob →
      samplePixel img (col * bs) ((blockRow + rib) * bs) pad tol = Except.error e →
      decodeRows img bs rob pad tol blockRow col (rib :: ribs) acc = Except.error e) ∧
    (∀ (img : Image) (bs rob rpb : Nat) (pad : Char) (tol : Nat) (blockRow col : Nat)
        (cols : List Nat) (acc : List Char) (e : CodecError),
      decodeRows img bs rob pad tol blockRow col (List.range rpb) acc = Except.error e →
      decodeCols img bs rob rpb pad tol blockRow (col :: cols) acc = Except.error e) ∧
    (∀ (img : Image) (bs bpr rob rpb : Nat) (pad : Char) (tol : Nat) (fuel blockRow : Nat)
        (acc : List Char) (e : CodecError),
      blockRow < rob →
      decodeCols img bs rob rpb pad tol blockRow (List.range bpr) acc = Except.error e →
      decodeOuter img bs bpr rob rpb pad tol (fuel + 1) blockRow acc =
        some (Except.error e)) := by
  refine ⟨?_, ?_, ?_, ?_⟩
  · intro seq cfg h
    rcases h with h | h | h
    · unfold dnaToPNGGrayscale
      rw [if_pos h]
      rfl
    · by_cases hb : cfg.blockSize ≤ 0
      · unfold dnaToPNGGrayscale
        rw [if_pos hb]
        rfl
      · unfold dnaToPNGGrayscale
        rw [if_neg hb, if_pos h]
        rfl
    · by_cases hb : cfg.blockSize ≤ 0
      · unfold dnaToPNGGrayscale
        rw [if_pos hb]
        rfl
      · by_cases hb2 : cfg.blocksPerRow ≤ 0
        · unfold dnaToPNGGrayscale
          rw [if_neg hb, if_pos hb2]
          rfl
        · unfold dnaToPNGGrayscale
          rw [if_neg hb, if_neg hb2, if_pos h]
          rfl
  · intro img bs rob pad tol blockRow col rib ribs acc e hlt herr
    rw [decodeRows, if_neg (by omega), herr]
  · intro img bs rob rpb pad tol blockRow col cols acc e herr
    rw [decodeCols, herr]
  · intro img bs bpr rob rpb pad tol fuel blockRow acc e hlt herr
    rw [decodeOuter, if_pos hlt, herr]

/-- A 1×1 grid holding one opaque pixel too far from every symbol
intensity: sampling it fails classification. -/
def badPixelImage : Image :=
  { width := 1, height := 1, pix := fun _ _ => RGBA.mk 30 30 30 255 }

/-- Claim C8 (witness): all four abort paths at concrete inputs. -/
theorem claim_C8_witness :
    (dnaToPNGGrayscale ['A'] cfgBadBlockSize).isOk = false ∧
    decodeRows badPixelImage 1 1 'N' 20 0 0 [0] [] =
      Except.error (CodecError.pixelError 0 0 (CodecError.unclassifiable 30 30)) ∧
    decodeCols badPixelImage 1 1 1 'N' 20 0 [0] [] =
      Except.error (CodecError.pixelError 0 0 (CodecError.unclassifiable 30 30)) ∧
    decodeOuter badPixelImage 1 1 1 1 'N' 20 1 0 [] =
      some (Except.error (CodecError.pixelError 0 0 (CodecError.unclassifiable 30 30))) :=
  ⟨claim_C8.1 ['A'] cfgBadBlockSize (Or.inl (by decide)),
   claim_C8.2.1 badPixelImage 1 1 'N' 20 0 0 0 [] [] _ (by decide) (by decide),
   claim_C8.2.2.1 badPixelImage 1 1 1 'N' 20 0 0 [] [] _ (by decide),
   claim_C8.2.2.2 badPixelImage 1 1 1 1 'N' 20 0 0 [] _ (by decide) (by decide)⟩

/-- Claim C9: the decode of an encode is identical for both settings of
`transparentPad` (the background fill writes the grid's zero value, which
the allocation already provides), and every block position whose sequence
index falls at or past the end of the sequence decodes to the padding
symbol — also with `transparentPad` disabled, since the encoder never
writes those pixels and their zero value has alpha 0. -/
theorem claim_C9 (cfg : Config) (seq : List Char)
    (h1 : 0 < cfg.blockSize) (h2 : 0 < cfg.blocksPerRow) (h3 : 0 < cfg.rowsPerBlock)
    (hvalid : ∀ c ∈ seq, c ∈ dataSymbols) :
    (roundTrip seq { cfg with transparentPad := false } =
      roundTrip seq { cfg with transparentPad := true }) ∧
    (∀ (out : List Char) (b col rib : Nat),
      roundTrip seq { cfg with transparentPad := false } =
        Except.ok (some (Except.ok out)) →
      b < (seq.length + cfg.blocksPerRow.toNat * cfg.rowsPerBlock.toNat - 1) /
        (cfg.blocksPerRow.toNat * cfg.rowsPerBlock.toNat) →
      col < cfg.blocksPerRow.toNat → rib < cfg.rowsPerBlock.toNat →
      seq.length ≤ b * (cfg.blocksPerRow.toNat * cfg.rowsPerBlock.toNat) +
        rib * cfg.blocksPerRow.toNat + col →
      out[b * (cfg.blocksPerRow.toNat * cfg.rowsPerBlock.toNat) +
        col * cfg.rowsPerBlock.toNat + rib]? = some cfg.paddingChar) := by
  have hbpr : 0 < cfg.blocksPerRow.toNat := by omega
  have hrpb : 0 < cfg.rowsPerBlock.toNat := by omega
  have hf := roundTrip_spec seq { cfg with transparentPad := false } h1 h2 h3 hvalid
  have ht := roundTrip_spec seq { cfg with transparentPad := true } h1 h2 h3 hvalid
  constructor
  · rw [hf, ht]
  · intro out b col rib heq hb hcol hrib hge
    rw [hf] at heq
    simp only [Except.ok.injEq, Option.some.injEq] at heq
    subst heq
    rw [decodedList_getElem seq cfg.blocksPerRow.toNat cfg.rowsPerBlock.toNat _
      cfg.paddingChar hbpr hrpb b col rib hb hcol hrib]
    rw [if_neg (by omega)]

/-- Claim C9 (witness): with `blocksPerRow = 2`, `rowsPerBlock = 1` and the
one-symbol sequence A, both flag settings decode identically and the
absent trailing position decodes to N. -/
theorem claim_C9_witness :
    (roundTrip ['A'] { cfgRow2 with transparentPad := false } =
      roundTrip ['A'] { cfgRow2 with transparentPad := true }) ∧
    (['A', 'N'] : List Char)[1]? = some 'N' :=
  ⟨(claim_C9 cfgRow2 ['A'] (by decide) (by decide) (by decide) (by decide)).1,
   (claim_C9 cfgRow2 ['A'] (by decide) (by decide) (by decide) (by decide)).2
     ['A', 'N'] 0 1 0 (by decide) (by decide) (by decide) (by decide) (by decide)⟩

/-- Claim C10: the one-time-pad identity — for every byte string `p` and
every key over the four data symbols of length exactly `4 × |p|`,
XOR-encrypting the DNA encoding of `p` with the key, XOR-decrypting with
the same key, and decoding back to bytes succeeds and returns `p`. -/
theorem claim_C10 (p : List Nat) (hp : ∀ b ∈ p, b < 256) (k : List Char)
    (hk : ∀ c ∈ k, c ∈ dataSymbols) (hlen : k.length = 4 * p.length) :
    (xorDNAStrings (textToDNA p) k).bind
      (fun ct => (xorDNAStrings ct k).bind dnaToText) = Except.ok p := by
  have hdlen : (textToDNA p).length = k.length := by
    rw [textToDNA_length]
    omega
  obtain ⟨ct, hct, hctlen, hback⟩ := xorDNAAux_double (textToDNA p) k hdlen
    (textToDNA_valid p) hk
  rw [xorDNAStrings, if_neg (by omega), hct]
  show (xorDNAStrings ct k).bind dnaToText = Except.ok p
  rw [xorDNAStrings, if_neg (by omega), hback]
  show dnaToText (textToDNA p) = Except.ok p
  exact dnaToText_textToDNA p hp

/-- Claim C10 (witness): the bytes of the string Hi with an 8-base key. -/
theorem claim_C10_witness :
    (xorDNAStrings (textToDNA [72, 105]) ['A', 'T', 'C', 'G', 'G', 'C', 'T', 'A']).bind
      (fun ct => (xorDNAStrings ct ['A', 'T', 'C', 'G', 'G', 'C', 'T', 'A']).bind
        dnaToText) = Except.ok [72, 105] :=
  claim_C10 [72, 105] (by decide) _ (by decide) (by decide)
